import Mathlib

/-!
# Verification of the `skiplist` container (src/skiplist/skiplist.h)

The C++ container is a skip list: several parallel sorted singly linked
lists ("layers"), the base layer holding every element, each higher layer
a randomly chosen sub-chain of the one below.  Every node has a `next`
pointer (same layer) and a `down` pointer (same element, one layer lower);
a valueless sentinel heads each layer and the sentinels are chained by
`down` (the field `head_` points at the topmost sentinel).

## Shallow embedding

The pointer graph of a skip list is, up to isomorphism, determined by the
per-layer sequences of values, so the state is embedded as

  * `layers : List (List T)` — the layers, topmost first (the order in
    which the sentinel chain hanging off `head_` reaches them); the last
    entry is the base layer;
  * `count_lvls : Nat` and `size_ : Int` — the two bookkeeping fields.

An `Iterator` (a `node*` into the base layer) is embedded as the suffix of
the base layer starting at the referenced node; the null pointer is `[]`.
Distinct base nodes have suffixes of distinct lengths, so suffix equality
is exactly pointer equality, `operator++` is `List.tail`, and dereference
is `List.head?`.

`coin_flip()` draws fresh entropy from a `std::random_device`; it is
embedded by passing an explicit list of outcomes `coins : List Bool` into
every operation that flips coins (an exhausted list reads as `false`,
which only ends the tower-building loop earlier; every real finite run of
flips is some such list).  Theorems quantify over `coins`, covering every
randomization outcome.

A node's `down` pointer leads to the node of the same tower one layer
lower, i.e. to the unique node of the layer below holding the same value
(`sufAfter` below); this resolution is exact on every reachable state,
where each tower holds one shared value and layer membership is
value-determined (invariant `Inv`).
-/

set_option maxHeartbeats 1000000
set_option linter.unusedSectionVars false

namespace SkipListVerification

/-- `Max_Level` (line 56): the fixed ceiling on the number of layers. -/
def Max_Level : Nat := 32

/-- The `skiplist` container state: the node graph reached from `head_`
(embedded as the per-layer value sequences, topmost layer first) plus the
two bookkeeping fields `count_lvls` and `size_` (lines 267-269). -/
structure skiplist (T : Type) where
  layers : List (List T)
  count_lvls : Nat
  size_ : Int
  deriving DecidableEq, Repr

/-- `skiplist::Iterator`: a pointer to a base-layer node, embedded as the
suffix of the base layer starting at that node (`[]` for `nullptr`). -/
abbrev Iterator (T : Type) : Type := List T

variable {T : Type} [LinearOrder T]

/-- Default-constructed `Iterator` (line 72): `current_node` is null. -/
def defaultIter : Iterator T := []

/-- `Iterator::operator bool` (lines 277-280): `current_node != nullptr`. -/
def iterBool (it : Iterator T) : Bool := !it.isEmpty

/-- `Iterator::operator++` (lines 283-287): `current_node = current_node->next`. -/
def iterNext (it : Iterator T) : Iterator T := it.tail

/-- `Iterator::operator*` (lines 296-299): the value at the node
(`none` models the undefined dereference of a null iterator). -/
def iterDeref (it : Iterator T) : Option T := it.head?

/-- The value sequence produced by repeatedly dereferencing and
incrementing an iterator until it compares equal to the end iterator. -/
def iterMaterialize : Iterator T → List T
  | [] => []
  | v :: r => v :: iterMaterialize r

/-- `skiplist::skiplist()` (lines 313-316): a single empty layer
(`head_ = new node()`), `count_lvls = 1`, `size_ = 0`. -/
def emptySk : skiplist T := ⟨[[]], 1, 0⟩

/-- The walk `while (curNode->down) curNode = curNode->down` of `begin`
(lines 391-396): from the topmost sentinel down to the base sentinel. -/
def lastLayer : List (List T) → List T
  | [] => []
  | [L] => L
  | _ :: L :: ls => lastLayer (L :: ls)

/-- `skiplist::begin` (lines 391-396): descend the sentinel chain, then
take `curNode->next` — the suffix that is the whole base layer. -/
def begin (s : skiplist T) : Iterator T := lastLayer s.layers

/-- `skiplist::end` (lines 398-401): `Iterator(nullptr)`. -/
def end_ (_s : skiplist T) : Iterator T := []

/-- One horizontal walk `while (curNode->next != nullptr && g(*curNode->next->value))
curNode = curNode->next;` inside a single layer: `cur` is the value at the
current node (`none` at a sentinel) and the argument list is the suffix
after the current node.  This loop body is shared by the in-layer phase of
every descent and by the final base-layer walk. -/
def scanR (g : T → Bool) : Option T → List T → Option T × List T
  | cur, [] => (cur, [])
  | cur, x :: xs => if g x then scanR g (some x) xs else (cur, x :: xs)

/-- Following a `down` pointer: the node of the layer below carrying the
same (shared) value, i.e. the suffix of that layer after the value `w`
(after the sentinel when `cur = none`).  Exact on reachable states, where
every tower node aliases the base value and appears once per layer. -/
def sufAfter [DecidableEq T] (cur : Option T) (L : List T) : List T :=
  match cur with
  | none => L
  | some w => (L.dropWhile (fun x => decide (x ≠ w))).tail

/-- The search descent (`find`/`lower_bound`/`upper_bound`, lines 403-435
and 473-490): the single `while (curNode->down != nullptr)` loop visits
each layer as "move right while `g` keeps the walk on this layer, then
drop down" (`scanR` then `sufAfter`), and the final base-layer walk is one
more `scanR`.  `below` holds the layers still below the current one. -/
def descend (g : T → Bool) : Option T → List T → List (List T) → Option T × List T
  | cur, rest, [] => scanR g cur rest
  | cur, rest, L :: bs =>
    let p := scanR g cur rest
    descend g p.1 (sufAfter p.1 L) bs

/-- The recording descent of `insert` (lines 495-514) and `erase` (lines
544-558): same walk as `descend`, additionally recording, for each layer
it drops from, that layer together with the suffix after the drop node
(the C++ `refs[cur_lvl] = curNode`).  The records come back bottom-first
(level 1 first), matching the index order of the C++ `refs` vector; the
base-layer record `refs[0]` is taken from the returned final position. -/
def descendRefs (g : T → Bool) :
    Option T → List T → List T → List (List T) →
    Option T × List T × List (List T × List T)
  | cur, rest, _, [] =>
    let p := scanR g cur rest
    (p.1, p.2, [])
  | cur, rest, curL, L :: bs =>
    let p := scanR g cur rest
    let q := descendRefs g p.1 (sufAfter p.1 L) L bs
    (q.1, q.2.1, q.2.2 ++ [(curL, p.2)])

/-- `skiplist::find` (lines 473-490): descend moving right while the next
value is not greater than the target (`!(value < *next->value)`), then
return the landing node if it holds the target, else `end()`. -/
def find (v : T) (s : skiplist T) : Iterator T :=
  match s.layers with
  | [] => []
  | topL :: bs =>
    let p := descend (fun x => ! decide (v < x)) none topL bs
    match p.1 with
    | none => []
    | some w => if w = v then w :: p.2 else []

/-- `skiplist::lower_bound` (lines 403-418): descend moving right while
the next value is less than the target, return `Iterator(curNode->next)`. -/
def lower_bound (v : T) (s : skiplist T) : Iterator T :=
  match s.layers with
  | [] => []
  | topL :: bs => (descend (fun x => decide (x < v)) none topL bs).2

/-- `skiplist::upper_bound` (lines 420-435): descend moving right while
the next value is not greater than the target, return
`Iterator(curNode->next)`. -/
def upper_bound (v : T) (s : skiplist T) : Iterator T :=
  match s.layers with
  | [] => []
  | topL :: bs => (descend (fun x => ! decide (v < x)) none topL bs).2

/-- `skiplist::empty` (lines 437-440). -/
def empty (s : skiplist T) : Bool := s.size_ == 0

/-- `skiplist::size` (lines 442-445). -/
def size (s : skiplist T) : Int := s.size_

/-- `skiplist::count` (lines 589-592): `find(value) == end() ? 0 : 1`. -/
def count (v : T) (s : skiplist T) : Int :=
  if find v s = end_ s then 0 else 1

/-- Splicing a new node holding `x` after the node whose recorded suffix
is `r` (`newNode->next = ref->next; ref->next = newNode;`): the part of
the layer before the suffix is unchanged and `x` heads the suffix. -/
def splice (L : List T) (r : List T) (x : T) : List T :=
  L.take (L.length - r.length) ++ x :: r

/-- Unlinking the successor of the node whose recorded suffix is `r`
(`ref->next = ref->next->next;`). -/
def spliceOut (L : List T) (r : List T) : List T :=
  L.take (L.length - r.length) ++ r.tail

/-- The tower-building loop of `insert` (lines 524-538):
`while (coin_flip() && ++cur_lvl < Max_Level)` — splice a new tower node
into the next recorded layer while layers remain (`cur_lvl < count_lvls`;
the remaining records `pairs` run out exactly then), else push a fresh
topmost layer holding only `v` (`head_ = new node(nullptr, newNode, head_);
++count_lvls`).  Returns the updated layers above the base, bottom-first,
the new `count_lvls`, and the unread coins. -/
def towerUp (v : T) :
    List Bool → Nat → Nat → List (List T × List T) →
    List (List T) × Nat × List Bool
  | [], _, cl, pairs => (pairs.map Prod.fst, cl, [])
  | flip :: cs, lvl, cl, pairs =>
    if flip then
      if lvl + 1 < Max_Level then
        match pairs with
        | (L, r) :: ps =>
          let t := towerUp v cs (lvl + 1) cl ps
          (splice L r v :: t.1, t.2)
        | [] =>
          let t := towerUp v cs (lvl + 1) (cl + 1) []
          ([v] :: t.1, t.2)
      else (pairs.map Prod.fst, cl, cs)
    else (pairs.map Prod.fst, cl, cs)

/-- The mutating tail of `insert` (lines 519-540), entered when the value
is absent: splice the base node in at the final descent position, bump
`size_`, then run the tower loop and reassemble the container. -/
def insertFresh (v : T) (coins : List Bool) (s : skiplist T)
    (r : List T) (pairs : List (List T × List T)) :
    Iterator T × skiplist T × List Bool :=
  let base := lastLayer s.layers
  let t := towerUp v coins 0 s.count_lvls pairs
  (v :: r, ⟨t.1.reverse ++ [splice base r v], t.2.1, s.size_ + 1⟩, t.2.2)

/-- `skiplist::insert` (lines 492-541): recording descent moving right
while the next value is not greater than the target (the loop runs
`while (cur_lvl > 0)`, i.e. down to the base layer); if the landing node
holds the value, return it unchanged (duplicate no-op, before any coin is
flipped), else splice a new tower in. -/
def insert (v : T) (coins : List Bool) (s : skiplist T) :
    Iterator T × skiplist T × List Bool :=
  match s.layers with
  | [] => ([], s, coins)
  | topL :: bs =>
    let d := descendRefs (fun x => ! decide (v < x)) none topL topL bs
    match d.1 with
    | some w =>
      if w = v then (w :: d.2.1, s, coins)
      else insertFresh v coins s d.2.1 d.2.2
    | none => insertFresh v coins s d.2.1 d.2.2

/-- The tower-removal loop of `erase` (lines 564-571): walk the recorded
predecessors bottom-up; while the predecessor's successor is the tower of
the erased value (the C++ test `ref->next->value == ref_on_value` compares
the shared value pointer, which on reachable states identifies the tower
by its value), unlink it; at the first layer where it is not, `break`,
leaving the remaining layers untouched.  Returns the layers bottom-first. -/
def unlinkLoop (v : T) : List (List T × List T) → List (List T)
  | [] => []
  | (L, r) :: ps =>
    match r with
    | [] => L :: ps.map Prod.fst
    | w :: t =>
      if w = v then spliceOut L (w :: t) :: unlinkLoop v ps
      else L :: ps.map Prod.fst

/-- The head-chain shrink loop of `erase` (lines 574-579):
`while (head_->next == nullptr && count_lvls > 1)` pop the topmost layer. -/
def shrink : List (List T) → Nat → List (List T) × Nat
  | layers, Nat.succ (Nat.succ n) =>
    if layers.head? = some ([] : List T) then shrink layers.tail (Nat.succ n)
    else (layers, Nat.succ (Nat.succ n))
  | layers, cl => (layers, cl)

/-- `shrink` written as the C++ loop reads: pop while the top layer is
empty and more than one layer remains. -/
theorem shrink_eq (layers : List (List T)) (cl : Nat) :
    shrink layers cl =
      if layers.head? = some ([] : List T) ∧ cl > 1 then
        shrink layers.tail (cl - 1)
      else (layers, cl) := by
  match cl with
  | 0 => simp [shrink]
  | 1 => simp [shrink]
  | Nat.succ (Nat.succ n) =>
    by_cases hh : layers.head? = some ([] : List T)
    · rw [if_pos ⟨hh, by omega⟩]
      show (if layers.head? = some ([] : List T) then _ else _) = _
      rw [if_pos hh]
      rfl
    · rw [if_neg (by intro hc; exact hh hc.1)]
      show (if layers.head? = some ([] : List T) then _ else _) = _
      rw [if_neg hh]

/-- `skiplist::erase` by value (lines 542-581): recording descent moving
right while the next value is less than the target; if the next node does
not hold the target, no-op returning `Iterator(curNode->next)`; else
unlink the tower bottom-up, decrement `size_`, shrink the head chain, and
return `Iterator(refs[0]->next)` — the node after the removed one. -/
def erase (v : T) (s : skiplist T) : Iterator T × skiplist T :=
  match s.layers with
  | [] => ([], s)
  | topL :: bs =>
    let d := descendRefs (fun x => decide (x < v)) none topL topL bs
    match d.2.1 with
    | [] => ([], s)
    | w :: t =>
      if w = v then
        let base := lastLayer s.layers
        let newLayers := (unlinkLoop v ((base, w :: t) :: d.2.2)).reverse
        let sh := shrink newLayers s.count_lvls
        (t, ⟨sh.1, sh.2, s.size_ - 1⟩)
      else (w :: t, s)

/-- `skiplist::erase(Iterator)` (lines 583-587): `return erase(*it);`.
Dereferencing the end iterator is undefined in the source; the model
leaves the container unchanged in that case. -/
def eraseIter (it : Iterator T) (s : skiplist T) : Iterator T × skiplist T :=
  match it with
  | [] => ([], s)
  | w :: _ => erase w s

/-- `refs[cur_lvl]->next = newNode; refs[cur_lvl] = newNode;` in the bulk
append loop (lines 141-152): append `v` at the tail of layer `i` of the
under-construction layer stack (bottom-first). -/
def appendAt (acc : List (List T)) (i : Nat) (v : T) : List (List T) :=
  acc.set i (acc.getD i [] ++ [v])

/-- The per-value tower loop of the range constructor (lines 141-152):
`while (++cur_lvl < Max_Level && coin_flip())` — the level check precedes
the flip here; a new topmost layer is opened when `cur_lvl >= count_lvls`. -/
def buildTower (v : T) : List Bool → Nat → Nat → List (List T) →
    List (List T) × Nat × List Bool
  | [], _, cl, acc => (acc, cl, [])
  | flip :: cs, lvl, cl, acc =>
    if lvl + 1 < Max_Level then
      if flip then
        if lvl + 1 ≥ cl then buildTower v cs (lvl + 1) (cl + 1) (acc ++ [[v]])
        else buildTower v cs (lvl + 1) cl (appendAt acc (lvl + 1) v)
      else (acc, cl, cs)
    else (acc, cl, flip :: cs)

/-- The body of the bulk-append loop (lines 136-154), one source value per
call: append the value at the base tail, then run its tower loop; the
state is (layers under construction bottom-first, `count_lvls`, `size_`,
unread coins). -/
def bulkAppend (st : List (List T) × Nat × Int × List Bool) (v : T) :
    List (List T) × Nat × Int × List Bool :=
  let b := buildTower v st.2.2.2 0 st.2.1 (appendAt st.1 0 v)
  (b.1, b.2.1, st.2.2.1 + 1, b.2.2)

/-- `skiplist::skiplist(InputIt, InputIt)` (lines 132-155): starting from
the default-constructed state, append every source value at the base-layer
tail and grow a fresh random tower for it; no search and no duplicate
check (the caller guarantees a sorted duplicate-free range). -/
def rangeCtor (vals : List T) (coins : List Bool) : skiplist T :=
  let st := vals.foldl bulkAppend ([[]], 1, 0, coins)
  ⟨st.1.reverse, st.2.1, st.2.2.1⟩

/-- `skiplist::skiplist(const skiplist&)` (lines 329-352): the same bulk
append loop run over `other.begin() .. other.end()`. -/
def copyCtor (other : skiplist T) (coins : List Bool) : skiplist T :=
  rangeCtor (iterMaterialize (begin other)) coins

/-- `skiplist::operator=` (lines 354-389): `if (this != &other)` — on
self-assignment nothing at all happens; otherwise the current contents are
destroyed and the bulk append loop is run over `other`'s elements.  The
pointer identity test `this != &other` is not a function of the two
values, so it enters the model as the explicit flag `isSelf`. -/
def assign (self other : skiplist T) (isSelf : Bool) (coins : List Bool) :
    skiplist T :=
  if isSelf then self
  else rangeCtor (iterMaterialize (begin other)) coins

/-- Height of the tower of `v`: how many layers hold a node of `v`. -/
def towerHeight (v : T) (s : skiplist T) : Nat :=
  (s.layers.filter (fun L => decide (v ∈ L))).length

/-- The structural invariant of every reachable container (spec section 3):
the head chain is nonempty and `count_lvls` counts its layers, the layer
ceiling is respected, each layer is a sub-chain of the layer below
(`List.Sublist`, topmost first), the base layer is strictly sorted, and
`size_` counts the base-layer elements. -/
def Inv (s : skiplist T) : Prop :=
  s.layers ≠ [] ∧
  s.count_lvls = s.layers.length ∧
  s.count_lvls ≤ Max_Level ∧
  List.Chain' List.Sublist s.layers ∧
  List.Sorted (· < ·) (begin s) ∧
  s.size_ = ((begin s).length : Int)

instance instDecidableInv [DecidableEq T] (s : skiplist T) :
    Decidable (Inv s) :=
  inferInstanceAs (Decidable (s.layers ≠ [] ∧
    s.count_lvls = s.layers.length ∧
    s.count_lvls ≤ Max_Level ∧
    List.Chain' List.Sublist s.layers ∧
    List.Sorted (· < ·) (begin s) ∧
    s.size_ = ((begin s).length : Int)))

/-- One public mutating operation, with its coin-flip outcomes. -/
inductive Op (T : Type) where
  | ins (v : T) (coins : List Bool)
  | del (v : T)

/-- Apply one operation to a container. -/
def applyOp (s : skiplist T) : Op T → skiplist T
  | .ins v coins => (insert v coins s).2.1
  | .del v => (erase v s).2

/-- Run a sequence of operations from the empty container. -/
def run (ops : List (Op T)) : skiplist T := ops.foldl applyOp emptySk

/-- Whether `v` is a member after running `ops` from the empty container:
inserted at some point and not erased later. -/
def memAfter (ops : List (Op T)) (v : T) : Bool :=
  ops.foldl
    (fun b op =>
      match op with
      | .ins w _ => b || decide (v = w)
      | .del w => b && ! decide (v = w))
    false

/-- Containers reachable by the public constructing and mutating
operations, under every outcome of the coin flips. -/
inductive Reach : skiplist T → Prop where
  | emptyStep : Reach emptySk
  | insStep (v : T) (coins : List Bool) {s : skiplist T} :
      Reach s → Reach (insert v coins s).2.1
  | delStep (v : T) {s : skiplist T} :
      Reach s → Reach (erase v s).2
  | rangeStep (vals : List T) (coins : List Bool) :
      Reach (rangeCtor vals coins)
  | copyStep (coins : List Bool) {s : skiplist T} :
      Reach s → Reach (copyCtor s coins)
  | assignStep (b : Bool) (coins : List Bool) {s t : skiplist T} :
      Reach s → Reach t → Reach (assign s t b coins)

/-! ## Helper lemmas about lists -/

theorem takeWhile_append_sat (g : T → Bool) :
    ∀ (pre rest : List T), (∀ x ∈ pre, g x = true) →
      (pre ++ rest).takeWhile g = pre ++ rest.takeWhile g := by
  intro pre
  induction pre with
  | nil => intro rest _; simp
  | cons a t ih =>
    intro rest h
    have ha : g a = true := h a (by simp)
    simp only [List.cons_append, List.takeWhile_cons_of_pos ha]
    rw [ih rest (fun x hx => h x (by simp [hx]))]

theorem dropWhile_append_sat (g : T → Bool) :
    ∀ (pre rest : List T), (∀ x ∈ pre, g x = true) →
      (pre ++ rest).dropWhile g = rest.dropWhile g := by
  intro pre
  induction pre with
  | nil => intro rest _; simp
  | cons a t ih =>
    intro rest h
    have ha : g a = true := h a (by simp)
    simp only [List.cons_append, List.dropWhile_cons_of_pos ha]
    exact ih rest (fun x hx => h x (by simp [hx]))

/-- Monotone acceptance predicate: if it accepts a value it accepts every
smaller one.  Both descent predicates of the source have this shape. -/
def Mono (g : T → Bool) : Prop := ∀ x y : T, x ≤ y → g y = true → g x = true

theorem mono_le (v : T) : Mono (fun x : T => ! decide (v < x)) := by
  intro x y hxy hy
  simp only [Bool.not_eq_true', decide_eq_false_iff_not, not_lt] at hy ⊢
  exact hxy.trans hy

theorem mono_lt (v : T) : Mono (fun x : T => decide (x < v)) := by
  intro x y hxy hy
  simp only [decide_eq_true_eq] at hy ⊢
  exact lt_of_le_of_lt hxy hy

theorem takeWhile_eq_filter_of_sorted (g : T → Bool) (hg : Mono g) :
    ∀ {l : List T}, l.Sorted (· < ·) → l.takeWhile g = l.filter g := by
  intro l
  induction l with
  | nil => intro _; rfl
  | cons a t ih =>
    intro hs
    rcases List.sorted_cons.1 hs with ⟨ha, ht⟩
    by_cases hga : g a = true
    · rw [List.takeWhile_cons_of_pos hga, List.filter_cons_of_pos hga, ih ht]
    · have hnone : ∀ x ∈ t, g x = false := by
        intro x hx
        by_contra hgx
        exact hga (hg a x (le_of_lt (ha x hx)) (by simpa using hgx))
      rw [List.takeWhile_cons_of_neg (by simpa using hga),
        List.filter_cons_of_neg (by simpa using hga)]
      symm
      simp only [List.filter_eq_nil_iff]
      intro x hx
      simp [hnone x hx]

theorem dropWhile_eq_filter_not_of_sorted (g : T → Bool) (hg : Mono g) :
    ∀ {l : List T}, l.Sorted (· < ·) →
      l.dropWhile g = l.filter (fun x => ! g x) := by
  intro l
  induction l with
  | nil => intro _; rfl
  | cons a t ih =>
    intro hs
    rcases List.sorted_cons.1 hs with ⟨ha, ht⟩
    by_cases hga : g a = true
    · rw [List.dropWhile_cons_of_pos hga, List.filter_cons_of_neg (by simp [hga]),
        ih ht]
    · have hnone : ∀ x ∈ t, g x = false := by
        intro x hx
        by_contra hgx
        exact hga (hg a x (le_of_lt (ha x hx)) (by simpa using hgx))
      rw [List.dropWhile_cons_of_neg (by simpa using hga),
        List.filter_cons_of_pos (by simp [hga])]
      have hft : List.filter (fun x => ! g x) t = t :=
        List.filter_eq_self.2 (by intro x hx; simp [hnone x hx])
      rw [hft]

theorem sufAfter_split {L : List T} {w : T}
    (hs : L.Sorted (· < ·)) (hw : w ∈ L) :
    L = L.takeWhile (fun x => decide (x ≠ w)) ++ w :: sufAfter (some w) L ∧
      ∀ x ∈ L.takeWhile (fun x => decide (x ≠ w)), x < w := by
  induction L with
  | nil => cases hw
  | cons a t ih =>
    rcases List.sorted_cons.1 hs with ⟨ha, ht⟩
    by_cases haw : a = w
    · subst haw
      constructor
      · simp [sufAfter, List.dropWhile_cons_of_neg]
      · intro x hx
        rw [List.takeWhile_cons_of_neg (by simp)] at hx
        cases hx
    · have hwt : w ∈ t := by
        cases hw with
        | head => exact absurd rfl haw
        | tail _ h => exact h
      rcases ih ht hwt with ⟨h1, h2⟩
      have hsuf : sufAfter (some w) (a :: t) = sufAfter (some w) t := by
        simp only [sufAfter]
        rw [List.dropWhile_cons_of_pos (by simpa using haw)]
      constructor
      · rw [hsuf, List.takeWhile_cons_of_pos (by simpa using haw)]
        simpa using congrArg (a :: ·) h1
      · intro x hx
        rw [List.takeWhile_cons_of_pos (by simpa using haw)] at hx
        cases hx with
        | head => exact ha w hwt
        | tail _ h => exact h2 x h

theorem lastLayer_cons_cons (a b : List T) (ls : List (List T)) :
    lastLayer (a :: b :: ls) = lastLayer (b :: ls) := rfl

theorem lastLayer_mem : ∀ {ls : List (List T)}, ls ≠ [] → lastLayer ls ∈ ls := by
  intro ls
  induction ls with
  | nil => intro h; exact absurd rfl h
  | cons a t ih =>
    intro _
    cases t with
    | nil => simp [lastLayer]
    | cons b u => exact List.mem_cons_of_mem a (ih (by simp))

theorem lastLayer_append_singleton (A : List (List T)) (x : List T) :
    lastLayer (A ++ [x]) = x := by
  induction A with
  | nil => rfl
  | cons a t ih =>
    cases t with
    | nil => rfl
    | cons b u => simpa [List.cons_append, lastLayer_cons_cons] using ih

theorem chain_sublist_lastLayer :
    ∀ {ls : List (List T)} {L : List T},
      List.Chain' List.Sublist (L :: ls) → L.Sublist (lastLayer (L :: ls)) := by
  intro ls
  induction ls with
  | nil => intro L _; exact List.Sublist.refl L
  | cons M ls' ih =>
    intro L hc
    rcases List.chain'_cons.1 hc with ⟨hLM, hc'⟩
    exact hLM.trans (ih hc')

theorem chain_sublist_mem_sorted {ls : List (List T)}
    (hc : List.Chain' List.Sublist ls)
    (hs : (lastLayer ls).Sorted (· < ·)) :
    ∀ L ∈ ls, L.Sorted (· < ·) := by
  induction ls with
  | nil => intro L hL; cases hL
  | cons a t ih =>
    intro L hL
    cases hL with
    | head =>
      exact hs.sublist (chain_sublist_lastLayer hc)
    | tail _ h =>
      cases t with
      | nil => cases h
      | cons b u =>
        exact ih (List.chain'_cons.1 hc).2 hs L h

/-! ## The walk inside one layer (`scanR`) -/

theorem scanR_spec (g : T → Bool) :
    ∀ (rest pre : List T), (∀ x ∈ pre, g x = true) →
      scanR g pre.getLast? rest =
        ((pre ++ rest.takeWhile g).getLast?, rest.dropWhile g) := by
  intro rest
  induction rest with
  | nil => intro pre _; simp [scanR]
  | cons x xs ih =>
    intro pre hpre
    by_cases hgx : g x = true
    · have h1 : (pre ++ [x]).getLast? = some x := by simp
      have h2 : ∀ y ∈ pre ++ [x], g y = true := by
        intro y hy
        rcases List.mem_append.1 hy with h | h
        · exact hpre y h
        · simp only [List.mem_singleton] at h; subst h; exact hgx
      have := ih (pre ++ [x]) h2
      rw [h1] at this
      simp only [scanR, hgx, if_pos rfl]
      rw [this, List.takeWhile_cons_of_pos hgx, List.dropWhile_cons_of_pos hgx]
      simp
    · simp only [scanR, hgx]
      rw [List.takeWhile_cons_of_neg (by simpa using hgx),
        List.dropWhile_cons_of_neg (by simpa using hgx)]
      simp

/-! ## Correctness of the layered descent -/

theorem descend_eq_descendRefs (g : T → Bool) :
    ∀ (below : List (List T)) (cur : Option T) (rest curL : List T),
      descend g cur rest below =
        ((descendRefs g cur rest curL below).1,
         (descendRefs g cur rest curL below).2.1) := by
  intro below
  induction below with
  | nil => intro cur rest curL; rfl
  | cons L bs ih =>
    intro cur rest curL
    simp only [descend, descendRefs]
    exact ih _ _ L

theorem descendRefs_pairs_fst (g : T → Bool) :
    ∀ (below : List (List T)) (cur : Option T) (rest curL : List T),
      ((descendRefs g cur rest curL below).2.2).map Prod.fst =
        ((curL :: below).dropLast).reverse := by
  intro below
  induction below with
  | nil => intro cur rest curL; rfl
  | cons L bs ih =>
    intro cur rest curL
    simp only [descendRefs, List.map_append, ih _ _ L]
    simp [List.dropLast_cons₂]

/-- The heart of the verification: under the reachable-state invariant the
layered descent lands at the same spot a plain scan of the base layer
would reach, and records, at every layer it drops from, the suffix of that
layer past its last accepted value. -/
theorem descendRefs_correct (g : T → Bool) (hg : Mono g) :
    ∀ (below : List (List T)) (curL pre rest : List T),
      List.Chain' List.Sublist (curL :: below) →
      (lastLayer (curL :: below)).Sorted (· < ·) →
      curL = pre ++ rest →
      (∀ x ∈ pre, g x = true) →
      descendRefs g pre.getLast? rest curL below =
        (((lastLayer (curL :: below)).takeWhile g).getLast?,
         (lastLayer (curL :: below)).dropWhile g,
         ((curL :: below).dropLast.reverse).map (fun L => (L, L.dropWhile g))) := by
  intro below
  induction below with
  | nil =>
    intro curL pre rest hchain hsort hsplit hpre
    subst hsplit
    simp only [descendRefs, lastLayer]
    rw [scanR_spec g rest pre hpre]
    rw [takeWhile_append_sat g pre rest hpre, dropWhile_append_sat g pre rest hpre]
    rfl
  | cons L bs ih =>
    intro curL pre rest hchain hsort hsplit hpre
    have hdropcur : curL.dropWhile g = rest.dropWhile g := by
      rw [hsplit, dropWhile_append_sat g pre rest hpre]
    have hchain' : List.Chain' List.Sublist (L :: bs) := (List.chain'_cons.1 hchain).2
    have hsub : curL.Sublist L := (List.chain'_cons.1 hchain).1
    have hlast : lastLayer (curL :: L :: bs) = lastLayer (L :: bs) := rfl
    have hsortL : L.Sorted (· < ·) :=
      chain_sublist_mem_sorted hchain' (hlast ▸ hsort) L (by simp)
    have hpairs : (curL :: L :: bs).dropLast.reverse
        = (L :: bs).dropLast.reverse ++ [curL] := by
      simp [List.dropLast_cons₂]
    simp only [descendRefs]
    rw [scanR_spec g rest pre hpre]
    set P : List T := pre ++ rest.takeWhile g with hP
    have hPsat : ∀ x ∈ P, g x = true := by
      intro x hx
      rcases List.mem_append.1 hx with h | h
      · exact hpre x h
      · exact List.mem_takeWhile_imp h
    cases hlastP : P.getLast? with
    | none =>
      have hPnil : P = [] := List.getLast?_eq_none_iff.1 hlastP
      have hpre0 : pre = [] := by
        rcases List.append_eq_nil.1 hPnil with ⟨h1, _⟩
        exact h1
      have hrest : curL = rest := by simpa [hpre0] using hsplit
      have := ih L [] L hchain' (hlast ▸ hsort) (by simp) (by intro x hx; cases hx)
      simp only [List.getLast?_nil] at this
      simp only [sufAfter]
      rw [this, hlast, hpairs]
      simp [hdropcur]
    | some w =>
      have hwP : w ∈ P := List.mem_of_getLast?_eq_some hlastP
      have hgw : g w = true := hPsat w hwP
      have hwcurL : w ∈ curL := by
        rw [hsplit]
        rcases List.mem_append.1 hwP with h | h
        · exact List.mem_append.2 (Or.inl h)
        · exact List.mem_append.2 (Or.inr ((List.takeWhile_sublist g).subset h))
      have hwL : w ∈ L := hsub.subset hwcurL
      rcases sufAfter_split hsortL hwL with ⟨hLsplit, hltw⟩
      set A : List T := L.takeWhile (fun x => decide (x ≠ w)) with hA
      have hsatA : ∀ x ∈ A ++ [w], g x = true := by
        intro x hx
        rcases List.mem_append.1 hx with h | h
        · exact hg x w (le_of_lt (hltw x h)) hgw
        · simp only [List.mem_singleton] at h; subst h; exact hgw
      have hlastA : (A ++ [w]).getLast? = some w := by simp
      have := ih L (A ++ [w]) (sufAfter (some w) L) hchain' (hlast ▸ hsort)
        (by rw [List.append_assoc]; simpa using hLsplit) hsatA
      rw [hlastA] at this
      rw [this, hlast, hpairs]
      simp [hdropcur]

/-! ## Instantiating the descent at a container state -/

theorem begin_eq_lastLayer (s : skiplist T) : begin s = lastLayer s.layers := rfl

theorem descendRefs_state (g : T → Bool) (hg : Mono g) (s : skiplist T)
    (h : Inv s) (topL : List T) (bs : List (List T))
    (hl : s.layers = topL :: bs) :
    descendRefs g none topL topL bs =
      (((begin s).takeWhile g).getLast?,
       (begin s).dropWhile g,
       (s.layers.dropLast.reverse).map (fun L => (L, L.dropWhile g))) := by
  have hchain : List.Chain' List.Sublist (topL :: bs) := hl ▸ h.2.2.2.1
  have hbase : begin s = lastLayer (topL :: bs) := by
    rw [begin_eq_lastLayer, hl]
  have hsort : (lastLayer (topL :: bs)).Sorted (· < ·) := hbase ▸ h.2.2.2.2.1
  have hmain := descendRefs_correct g hg bs topL [] topL hchain hsort
    (by simp) (by intro x hx; cases hx)
  simp only [List.getLast?_nil] at hmain
  rw [hmain, hbase, hl]

theorem descend_state (g : T → Bool) (hg : Mono g) (s : skiplist T)
    (h : Inv s) (topL : List T) (bs : List (List T))
    (hl : s.layers = topL :: bs) :
    descend g none topL bs =
      (((begin s).takeWhile g).getLast?, (begin s).dropWhile g) := by
  rw [descend_eq_descendRefs g bs none topL topL,
    descendRefs_state g hg s h topL bs hl]

/-! ## Splitting a sorted list at a member -/

theorem sorted_split_mem {l : List T} {v : T}
    (hs : l.Sorted (· < ·)) (hv : v ∈ l) :
    ∃ A B, l = A ++ v :: B ∧ (∀ x ∈ A, x < v) ∧ (∀ x ∈ B, v < x) := by
  rcases sufAfter_split hs hv with ⟨h1, h2⟩
  refine ⟨l.takeWhile (fun x => decide (x ≠ v)), sufAfter (some v) l, h1, h2, ?_⟩
  have hsub : List.Sublist (v :: sufAfter (some v) l) l := by
    conv_rhs => rw [h1]
    exact List.sublist_append_right _ _
  have : (v :: sufAfter (some v) l).Sorted (· < ·) := hs.sublist hsub
  exact (List.sorted_cons.1 this).1

theorem filter_split_le {A B : List T} {v : T}
    (hA : ∀ x ∈ A, x < v) (hB : ∀ x ∈ B, v < x) :
    (A ++ v :: B).filter (fun x => ! decide (v < x)) = A ++ [v] := by
  rw [List.filter_append, List.filter_cons_of_pos (by simp)]
  have h1 : A.filter (fun x => ! decide (v < x)) = A :=
    List.filter_eq_self.2 (by intro x hx; simp [not_lt_of_lt (hA x hx), le_of_lt (hA x hx)])
  have h2 : B.filter (fun x => ! decide (v < x)) = [] := by
    simp only [List.filter_eq_nil_iff]
    intro x hx
    simp [hB x hx]
  rw [h1, h2]

theorem filter_split_gt {A B : List T} {v : T}
    (hA : ∀ x ∈ A, x < v) (hB : ∀ x ∈ B, v < x) :
    (A ++ v :: B).filter (fun x => decide (v < x)) = B := by
  rw [List.filter_append, List.filter_cons_of_neg (by simp)]
  have h1 : A.filter (fun x => decide (v < x)) = [] := by
    simp only [List.filter_eq_nil_iff]
    intro x hx
    simp [not_lt_of_lt (hA x hx)]
  have h2 : B.filter (fun x => decide (v < x)) = B :=
    List.filter_eq_self.2 (by intro x hx; simp [hB x hx])
  rw [h1, h2]
  rfl

theorem filter_split_lt {A B : List T} {v : T}
    (hA : ∀ x ∈ A, x < v) (hB : ∀ x ∈ B, v < x) :
    (A ++ v :: B).filter (fun x => decide (x < v)) = A := by
  rw [List.filter_append, List.filter_cons_of_neg (by simp)]
  have h1 : A.filter (fun x => decide (x < v)) = A :=
    List.filter_eq_self.2 (by intro x hx; simp [hA x hx])
  have h2 : B.filter (fun x => decide (x < v)) = [] := by
    simp only [List.filter_eq_nil_iff]
    intro x hx
    simp [not_lt_of_lt (hB x hx)]
  rw [h1, h2]
  simp

theorem filter_split_ge {A B : List T} {v : T}
    (hA : ∀ x ∈ A, x < v) (hB : ∀ x ∈ B, v < x) :
    (A ++ v :: B).filter (fun x => ! decide (x < v)) = v :: B := by
  rw [List.filter_append, List.filter_cons_of_pos (by simp)]
  have h1 : A.filter (fun x => ! decide (x < v)) = [] := by
    simp only [List.filter_eq_nil_iff]
    intro x hx
    simp [hA x hx]
  have h2 : B.filter (fun x => ! decide (x < v)) = B :=
    List.filter_eq_self.2
      (by intro x hx; simp [not_lt_of_lt (hB x hx), le_of_lt (hB x hx)])
  rw [h1, h2]
  rfl

/-! ## `find`, `lower_bound`, `upper_bound` on an invariant state -/

theorem find_mem (v : T) (s : skiplist T) (h : Inv s) (hv : v ∈ begin s) :
    find v s = v :: (begin s).filter (fun x => decide (v < x)) := by
  cases hl : s.layers with
  | nil => exact absurd hl h.1
  | cons topL bs =>
    have hsort : (begin s).Sorted (· < ·) := h.2.2.2.2.1
    rcases sorted_split_mem hsort hv with ⟨A, B, hsplit, hA, hB⟩
    have hdes := descend_state (fun x => ! decide (v < x)) (mono_le v) s h topL bs hl
    have htake : ((begin s).takeWhile (fun x => ! decide (v < x))).getLast? = some v := by
      rw [takeWhile_eq_filter_of_sorted _ (mono_le v) hsort, hsplit,
        filter_split_le hA hB]
      simp
    have hdrop : (begin s).dropWhile (fun x => ! decide (v < x))
        = (begin s).filter (fun x => decide (v < x)) := by
      rw [dropWhile_eq_filter_not_of_sorted _ (mono_le v) hsort]
      simp only [Bool.not_not]
    simp [find, hl, hdes, htake, hdrop]

theorem find_not_mem (v : T) (s : skiplist T) (h : Inv s) (hv : v ∉ begin s) :
    find v s = [] := by
  cases hl : s.layers with
  | nil => simp [find, hl]
  | cons topL bs =>
    have hsort : (begin s).Sorted (· < ·) := h.2.2.2.2.1
    have hdes := descend_state (fun x => ! decide (v < x)) (mono_le v) s h topL bs hl
    simp only [find, hl, hdes]
    cases hlast : ((begin s).takeWhile (fun x => ! decide (v < x))).getLast? with
    | none => rfl
    | some w =>
      have hwmem : w ∈ begin s :=
        (List.takeWhile_sublist _).subset (List.mem_of_getLast?_eq_some hlast)
      have hwv : w ≠ v := fun he => hv (he ▸ hwmem)
      simp [hwv]

theorem lower_bound_spec (v : T) (s : skiplist T) (h : Inv s) :
    lower_bound v s = (begin s).filter (fun x => ! decide (x < v)) := by
  cases hl : s.layers with
  | nil => exact absurd hl h.1
  | cons topL bs =>
    have hsort : (begin s).Sorted (· < ·) := h.2.2.2.2.1
    have hdes := descend_state (fun x => decide (x < v)) (mono_lt v) s h topL bs hl
    simp only [lower_bound, hl, hdes]
    rw [dropWhile_eq_filter_not_of_sorted _ (mono_lt v) hsort]

theorem upper_bound_spec (v : T) (s : skiplist T) (h : Inv s) :
    upper_bound v s = (begin s).filter (fun x => decide (v < x)) := by
  cases hl : s.layers with
  | nil => exact absurd hl h.1
  | cons topL bs =>
    have hsort : (begin s).Sorted (· < ·) := h.2.2.2.2.1
    have hdes := descend_state (fun x => ! decide (v < x)) (mono_le v) s h topL bs hl
    simp only [upper_bound, hl, hdes]
    rw [dropWhile_eq_filter_not_of_sorted _ (mono_le v) hsort]
    simp only [Bool.not_not]

/-! ## The tower-building loop of `insert` -/

theorem splice_dropWhile (g : T → Bool) (L : List T) (v : T) :
    splice L (L.dropWhile g) v = L.takeWhile g ++ v :: L.dropWhile g := by
  obtain ⟨A, B, hA, hB, hAB⟩ :
      ∃ A B, A = L.takeWhile g ∧ B = L.dropWhile g ∧ A ++ B = L :=
    ⟨_, _, rfl, rfl, List.takeWhile_append_dropWhile g L⟩
  rw [splice, ← hA, ← hB, ← hAB, List.length_append, Nat.add_sub_cancel,
    List.take_left]

theorem sublist_sIns (g : T → Bool) (v : T) (L : List T) :
    L.Sublist (L.takeWhile g ++ v :: L.dropWhile g) := by
  conv_lhs => rw [← List.takeWhile_append_dropWhile g L]
  exact (List.Sublist.refl _).append (List.sublist_cons_self v _)

theorem sIns_mono (v : T) {A B : List T} (hAB : A.Sublist B)
    (hB : B.Sorted (· < ·)) :
    (A.takeWhile (fun x => ! decide (v < x)) ++ v :: A.dropWhile (fun x => ! decide (v < x))).Sublist
      (B.takeWhile (fun x => ! decide (v < x)) ++ v :: B.dropWhile (fun x => ! decide (v < x))) := by
  have hA : A.Sorted (· < ·) := hB.sublist hAB
  rw [takeWhile_eq_filter_of_sorted _ (mono_le v) hA,
    takeWhile_eq_filter_of_sorted _ (mono_le v) hB,
    dropWhile_eq_filter_not_of_sorted _ (mono_le v) hA,
    dropWhile_eq_filter_not_of_sorted _ (mono_le v) hB]
  exact (hAB.filter _).append ((hAB.filter _).cons₂ v)

/-- Data carried down the recorded predecessor stack during the tower
loop: each recorded suffix is the layer's tail past its last value not
greater than `v`, each recorded layer is sorted, misses `v`, and is a
sub-chain of the layer below it (`M` at the bottom). -/
def TowerChain (v : T) : List T → List (List T × List T) → Prop
  | _, [] => True
  | M, (L, r) :: ps =>
      r = L.dropWhile (fun x => ! decide (v < x)) ∧
      L.Sorted (· < ·) ∧ v ∉ L ∧ L.Sublist M ∧ TowerChain v L ps

theorem towerChain_chain (v : T) :
    ∀ (pairs : List (List T × List T)) (M prev : List T),
      TowerChain v M pairs → M.Sublist prev →
      List.Chain' (fun a b => List.Sublist b a) (prev :: pairs.map Prod.fst) := by
  intro pairs
  induction pairs with
  | nil => intro M prev _ _; simp
  | cons p ps ih =>
    intro M prev hc hMp
    obtain ⟨L, r⟩ := p
    rcases hc with ⟨_, _, _, hLM, hrec⟩
    rw [List.map_cons]
    exact List.chain'_cons.2 ⟨hLM.trans hMp, ih L L hrec (List.Sublist.refl L)⟩

theorem towerChain_build (v : T) :
    ∀ (ls : List (List T)) (M : List T),
      List.Chain' (fun a b => List.Sublist b a) (M :: ls) →
      (∀ L ∈ ls, L.Sorted (· < ·) ∧ v ∉ L) →
      TowerChain v M (ls.map (fun L => (L, L.dropWhile (fun x => ! decide (v < x))))) := by
  intro ls
  induction ls with
  | nil => intro M _ _; trivial
  | cons L ls' ih =>
    intro M hc hmem
    rcases List.chain'_cons.1 hc with ⟨hLM, hc'⟩
    rcases hmem L (by simp) with ⟨hsL, hvL⟩
    exact ⟨rfl, hsL, hvL, hLM,
      ih L hc' (fun K hK => hmem K (List.mem_cons_of_mem L hK))⟩

theorem chain_mem_sublist_lastLayer :
    ∀ {ls : List (List T)}, List.Chain' List.Sublist ls →
      ∀ L ∈ ls, L.Sublist (lastLayer ls) := by
  intro ls
  induction ls with
  | nil => intro _ L hL; cases hL
  | cons a t ih =>
    intro hc L hL
    cases hL with
    | head => exact chain_sublist_lastLayer hc
    | tail _ h =>
      cases t with
      | nil => cases h
      | cons b u =>
        rw [lastLayer_cons_cons]
        exact ih (List.chain'_cons.1 hc).2 L h

theorem towerUp_nil_coins (v : T) (lvl cl : Nat) (pairs : List (List T × List T)) :
    towerUp v [] lvl cl pairs = (pairs.map Prod.fst, cl, []) := rfl

theorem towerUp_false (v : T) (cs : List Bool) (lvl cl : Nat)
    (pairs : List (List T × List T)) :
    towerUp v (false :: cs) lvl cl pairs = (pairs.map Prod.fst, cl, cs) := rfl

theorem towerUp_true_cap (v : T) (cs : List Bool) (lvl cl : Nat)
    (pairs : List (List T × List T)) (h : ¬ lvl + 1 < Max_Level) :
    towerUp v (true :: cs) lvl cl pairs = (pairs.map Prod.fst, cl, cs) := by
  simp [towerUp, h]

theorem towerUp_true_cons (v : T) (cs : List Bool) (lvl cl : Nat)
    (L r : List T) (ps : List (List T × List T)) (h : lvl + 1 < Max_Level) :
    towerUp v (true :: cs) lvl cl ((L, r) :: ps) =
      (splice L r v :: (towerUp v cs (lvl + 1) cl ps).1,
       (towerUp v cs (lvl + 1) cl ps).2) := by
  simp [towerUp, h]

theorem towerUp_true_push (v : T) (cs : List Bool) (lvl cl : Nat)
    (h : lvl + 1 < Max_Level) :
    towerUp v (true :: cs) lvl cl [] =
      ([v] :: (towerUp v cs (lvl + 1) (cl + 1) []).1,
       (towerUp v cs (lvl + 1) (cl + 1) []).2) := by
  simp [towerUp, h]

/-- Master lemma for the tower loop: starting above a freshly spliced base
(or inside the pushed-top region), the loop keeps the layers a sub-chain
stack, keeps `count_lvls` in step with the number of layers above the
base, and never exceeds the ceiling. -/
theorem towerUp_spec (v : T) :
    ∀ (coins : List Bool) (lvl cl : Nat) (pairs : List (List T × List T))
      (prev M : List T),
      cl = lvl + 1 + pairs.length →
      cl ≤ 32 →
      ((prev = M.takeWhile (fun x => ! decide (v < x)) ++
          v :: M.dropWhile (fun x => ! decide (v < x)) ∧
        M.Sorted (· < ·) ∧ TowerChain v M pairs) ∨
       (pairs = [] ∧ v ∈ prev)) →
      List.Chain' (fun a b => List.Sublist b a)
        (prev :: (towerUp v coins lvl cl pairs).1) ∧
      (towerUp v coins lvl cl pairs).2.1
        = lvl + 1 + (towerUp v coins lvl cl pairs).1.length ∧
      (towerUp v coins lvl cl pairs).2.1 ≤ 32 := by
  intro coins
  induction coins with
  | nil =>
    intro lvl cl pairs prev M hsync hcl hyp
    rw [towerUp_nil_coins]
    refine ⟨?_, by simpa using hsync, hcl⟩
    rcases hyp with ⟨hprev, hM, hchain⟩ | ⟨hnil, _⟩
    · exact towerChain_chain v pairs M prev hchain (hprev ▸ sublist_sIns _ v M)
    · simp [hnil]
  | cons flip cs ih =>
    intro lvl cl pairs prev M hsync hcl hyp
    cases flip with
    | false =>
      rw [towerUp_false]
      refine ⟨?_, by simpa using hsync, hcl⟩
      rcases hyp with ⟨hprev, hM, hchain⟩ | ⟨hnil, _⟩
      · exact towerChain_chain v pairs M prev hchain (hprev ▸ sublist_sIns _ v M)
      · simp [hnil]
    | true =>
      by_cases hlvl : lvl + 1 < Max_Level
      · cases pairs with
        | cons p ps =>
          obtain ⟨L, r⟩ := p
          have hyp' : prev = M.takeWhile (fun x => ! decide (v < x)) ++
              v :: M.dropWhile (fun x => ! decide (v < x)) ∧
              M.Sorted (· < ·) ∧ TowerChain v M ((L, r) :: ps) := by
            rcases hyp with h | ⟨hnil, _⟩
            · exact h
            · cases hnil
          rcases hyp' with ⟨hprev, hM, hr, hsL, hvL, hLM, hrec⟩
          have hsplice : splice L r v
              = L.takeWhile (fun x => ! decide (v < x)) ++
                v :: L.dropWhile (fun x => ! decide (v < x)) := by
            rw [hr]; exact splice_dropWhile _ L v
          have hrest := ih (lvl + 1) cl ps (splice L r v) L
            (by simp only [List.length_cons] at hsync; omega) hcl
            (Or.inl ⟨hsplice, hsL, hrec⟩)
          have hstep : (splice L r v).Sublist prev := by
            rw [hsplice, hprev]
            exact sIns_mono v hLM hM
          rw [towerUp_true_cons v cs lvl cl L r ps hlvl]
          refine ⟨List.chain'_cons.2 ⟨hstep, hrest.1⟩, ?_, hrest.2.2⟩
          simp only [List.length_cons]
          omega
        | nil =>
          have hv : v ∈ prev := by
            rcases hyp with ⟨hprev, _, _⟩ | ⟨_, hv⟩
            · rw [hprev]
              exact List.mem_append.2 (Or.inr (by simp))
            · exact hv
          have hsync' : cl = lvl + 1 := by simpa using hsync
          have hrest := ih (lvl + 1) (cl + 1) [] [v] []
            (by omega) (by simp only [Max_Level] at hlvl; omega)
            (Or.inr ⟨rfl, by simp⟩)
          rw [towerUp_true_push v cs lvl cl hlvl]
          refine ⟨List.chain'_cons.2
            ⟨List.singleton_sublist.2 hv, hrest.1⟩, ?_, hrest.2.2⟩
          simp only [List.length_cons]
          omega
      · rw [towerUp_true_cap v cs lvl cl pairs hlvl]
        refine ⟨?_, by simpa using hsync, hcl⟩
        rcases hyp with ⟨hprev, hM, hchain⟩ | ⟨hnil, _⟩
        · exact towerChain_chain v pairs M prev hchain (hprev ▸ sublist_sIns _ v M)
        · simp [hnil]

/-! ## `insert` on an invariant state -/

theorem chain_rev_of_chain {l : List (List T)}
    (h : List.Chain' List.Sublist l) :
    List.Chain' (fun a b => List.Sublist b a) l.reverse := by
  rw [List.chain'_reverse]
  exact h

theorem chain_of_chain_rev {l : List (List T)}
    (h : List.Chain' (fun a b => List.Sublist b a) l) :
    List.Chain' List.Sublist l.reverse := by
  rw [List.chain'_reverse]
  exact h

theorem lastLayer_eq_getLast {l : List (List T)} (hne : l ≠ []) :
    lastLayer l = l.getLast hne := by
  conv_lhs => rw [← List.dropLast_append_getLast hne]
  rw [lastLayer_append_singleton]

theorem reverse_eq_lastLayer_cons {l : List (List T)} (hne : l ≠ []) :
    l.reverse = lastLayer l :: l.dropLast.reverse := by
  conv_lhs => rw [← List.dropLast_append_getLast hne]
  rw [List.reverse_append, ← lastLayer_eq_getLast hne]
  simp

theorem sorted_append_iff {l₁ l₂ : List T} :
    (l₁ ++ l₂).Sorted (· < ·) ↔
      l₁.Sorted (· < ·) ∧ l₂.Sorted (· < ·) ∧ ∀ a ∈ l₁, ∀ b ∈ l₂, a < b :=
  List.pairwise_append

theorem sorted_sIns (v : T) {L : List T} (hs : L.Sorted (· < ·)) (hv : v ∉ L) :
    (L.takeWhile (fun x => ! decide (v < x)) ++
      v :: L.dropWhile (fun x => ! decide (v < x))).Sorted (· < ·) := by
  rw [takeWhile_eq_filter_of_sorted _ (mono_le v) hs,
    dropWhile_eq_filter_not_of_sorted _ (mono_le v) hs]
  have hlt : ∀ a ∈ L.filter (fun x => ! decide (v < x)), a < v := by
    intro a ha
    have ha' : ¬ v < a := by simpa using List.of_mem_filter ha
    exact lt_of_le_of_ne (not_lt.1 ha')
      (fun he => hv (he ▸ List.mem_of_mem_filter ha))
  have hgt : ∀ b ∈ L.filter (fun x => ! ! decide (v < x)), v < b := by
    intro b hb
    simpa using List.of_mem_filter hb
  rw [sorted_append_iff]
  refine ⟨hs.filter _, ?_, ?_⟩
  · rw [List.sorted_cons]
    exact ⟨hgt, hs.filter _⟩
  · intro a ha b hb
    cases hb with
    | head => exact hlt a ha
    | tail _ hb' => exact (hlt a ha).trans (hgt b hb')

theorem insert_reduce (v : T) (coins : List Bool) (s : skiplist T)
    (h : Inv s) (hv : v ∉ begin s) :
    insert v coins s = insertFresh v coins s
      ((begin s).dropWhile (fun x => ! decide (v < x)))
      ((s.layers.dropLast.reverse).map
        (fun L => (L, L.dropWhile (fun x => ! decide (v < x))))) := by
  cases hl : s.layers with
  | nil => exact absurd hl h.1
  | cons topL bs =>
    have hdes := descendRefs_state _ (mono_le v) s h topL bs hl
    simp only [insert, hl, hdes]
    cases hc : ((begin s).takeWhile (fun x => ! decide (v < x))).getLast? with
    | none => simp [hl]
    | some w =>
      have hwmem : w ∈ begin s :=
        (List.takeWhile_sublist _).subset (List.mem_of_getLast?_eq_some hc)
      have hwv : w ≠ v := fun he => hv (he ▸ hwmem)
      simp [hwv, hl]

theorem begin_mk (ls : List (List T)) (cl : Nat) (sz : Int) :
    begin (⟨ls, cl, sz⟩ : skiplist T) = lastLayer ls := rfl

theorem insert_not_mem_spec (v : T) (coins : List Bool) (s : skiplist T)
    (h : Inv s) (hv : v ∉ begin s) :
    (insert v coins s).1 = v :: (begin s).filter (fun x => decide (v < x)) ∧
    begin (insert v coins s).2.1
      = (begin s).takeWhile (fun x => ! decide (v < x)) ++
        v :: (begin s).dropWhile (fun x => ! decide (v < x)) ∧
    (insert v coins s).2.1.size_ = s.size_ + 1 ∧
    Inv (insert v coins s).2.1 := by
  obtain ⟨hne, hcount, hcap, hchain, hsort, hsize⟩ := h
  have hins1 : (insert v coins s).1
      = v :: (begin s).dropWhile (fun x => ! decide (v < x)) := by
    rw [insert_reduce v coins s ⟨hne, hcount, hcap, hchain, hsort, hsize⟩ hv]
    rfl
  have hins2 : (insert v coins s).2.1 =
      ⟨(towerUp v coins 0 s.count_lvls
          ((s.layers.dropLast.reverse).map
            (fun L => (L, L.dropWhile (fun x => ! decide (v < x)))))).1.reverse ++
        [splice (begin s) ((begin s).dropWhile (fun x => ! decide (v < x))) v],
       (towerUp v coins 0 s.count_lvls
          ((s.layers.dropLast.reverse).map
            (fun L => (L, L.dropWhile (fun x => ! decide (v < x)))))).2.1,
       s.size_ + 1⟩ := by
    rw [insert_reduce v coins s ⟨hne, hcount, hcap, hchain, hsort, hsize⟩ hv]
    rfl
  have hsplice := splice_dropWhile (fun x => ! decide (v < x)) (begin s) v
  have hlen_pairs :
      ((s.layers.dropLast.reverse).map
        (fun L => (L, L.dropWhile (fun x => ! decide (v < x))))).length
      = s.layers.length - 1 := by
    simp
  have hlayers_pos : 1 ≤ s.layers.length := by
    cases hL : s.layers with
    | nil => exact absurd hL hne
    | cons a t => simp
  have hbase : lastLayer s.layers = begin s := rfl
  have hmemfacts : ∀ L ∈ s.layers.dropLast.reverse,
      L.Sorted (· < ·) ∧ v ∉ L := by
    intro L hL
    rw [List.mem_reverse] at hL
    have hLmem : L ∈ s.layers := (List.dropLast_sublist _).subset hL
    have hLsub : L.Sublist (lastLayer s.layers) :=
      chain_mem_sublist_lastLayer hchain L hLmem
    rw [hbase] at hLsub
    exact ⟨hsort.sublist hLsub, fun hvL => hv (hLsub.subset hvL)⟩
  have hrevchain : List.Chain' (fun a b => List.Sublist b a)
      (begin s :: s.layers.dropLast.reverse) := by
    have := chain_rev_of_chain hchain
    rwa [reverse_eq_lastLayer_cons hne, hbase] at this
  have htc : TowerChain v (begin s)
      ((s.layers.dropLast.reverse).map
        (fun L => (L, L.dropWhile (fun x => ! decide (v < x))))) :=
    towerChain_build v _ _ hrevchain hmemfacts
  obtain ⟨htuchain, htusync, htucap⟩ := towerUp_spec v coins 0 s.count_lvls
    ((s.layers.dropLast.reverse).map
      (fun L => (L, L.dropWhile (fun x => ! decide (v < x)))))
    (splice (begin s) ((begin s).dropWhile (fun x => ! decide (v < x))) v)
    (begin s)
    (by rw [hlen_pairs, hcount]; omega)
    (by simpa [Max_Level] using hcap)
    (Or.inl ⟨hsplice, hsort, htc⟩)
  have hdropfilter : (begin s).dropWhile (fun x => ! decide (v < x))
      = (begin s).filter (fun x => decide (v < x)) := by
    rw [dropWhile_eq_filter_not_of_sorted _ (mono_le v) hsort]
    simp only [Bool.not_not]
  have hlensum : ((begin s).takeWhile (fun x => ! decide (v < x))).length +
      ((begin s).dropWhile (fun x => ! decide (v < x))).length
      = (begin s).length := by
    have hc := congrArg List.length (List.takeWhile_append_dropWhile
      (fun x => ! decide (v < x)) (begin s))
    rw [List.length_append] at hc
    exact hc
  have hins1' : (insert v coins s).1
      = v :: (begin s).filter (fun x => decide (v < x)) := by
    rw [hins1, hdropfilter]
  have hbeginres : begin (insert v coins s).2.1
      = (begin s).takeWhile (fun x => ! decide (v < x)) ++
        v :: (begin s).dropWhile (fun x => ! decide (v < x)) := by
    rw [hins2, begin_mk, lastLayer_append_singleton, hsplice]
  refine ⟨hins1', hbeginres, by rw [hins2], ?_⟩
  refine ⟨?_, ?_, ?_, ?_, ?_, ?_⟩
  · rw [hins2]
    simp
  · rw [hins2]
    show (towerUp v coins 0 s.count_lvls _).2.1 = _
    simp only [List.length_append, List.length_reverse, List.length_cons,
      List.length_nil]
    rw [htusync]
    omega
  · rw [hins2]
    show (towerUp v coins 0 s.count_lvls _).2.1 ≤ Max_Level
    simpa [Max_Level] using htucap
  · rw [hins2]
    show List.Chain' List.Sublist (_ ++ [_])
    have := chain_of_chain_rev htuchain
    rwa [List.reverse_cons] at this
  · rw [hbeginres]
    exact sorted_sIns v hsort hv
  · rw [hbeginres, hins2]
    show s.size_ + 1 = _
    rw [hsize]
    have hlen2 : ((begin s).takeWhile (fun x => ! decide (v < x)) ++
        v :: (begin s).dropWhile (fun x => ! decide (v < x))).length
        = (begin s).length + 1 := by
      rw [List.length_append]
      simp only [List.length_cons]
      omega
    rw [hlen2]
    push_cast
    ring

theorem insert_mem_spec (v : T) (coins : List Bool) (s : skiplist T)
    (h : Inv s) (hv : v ∈ begin s) :
    insert v coins s = (v :: (begin s).filter (fun x => decide (v < x)), s, coins) := by
  cases hl : s.layers with
  | nil => exact absurd hl h.1
  | cons topL bs =>
    have hsort : (begin s).Sorted (· < ·) := h.2.2.2.2.1
    rcases sorted_split_mem hsort hv with ⟨A, B, hsplit, hA, hB⟩
    have hdes := descendRefs_state _ (mono_le v) s h topL bs hl
    have htake : ((begin s).takeWhile (fun x => ! decide (v < x))).getLast? = some v := by
      rw [takeWhile_eq_filter_of_sorted _ (mono_le v) hsort, hsplit,
        filter_split_le hA hB]
      simp
    have hdrop : (begin s).dropWhile (fun x => ! decide (v < x))
        = (begin s).filter (fun x => decide (v < x)) := by
      rw [dropWhile_eq_filter_not_of_sorted _ (mono_le v) hsort]
      simp only [Bool.not_not]
    simp [insert, hl, hdes, htake, hdrop]

/-! ## `erase` on an invariant state -/

theorem filter_split_ne {A B : List T} {v : T}
    (hA : ∀ x ∈ A, x < v) (hB : ∀ x ∈ B, v < x) :
    (A ++ v :: B).filter (fun x => ! decide (x = v)) = A ++ B := by
  rw [List.filter_append, List.filter_cons_of_neg (by simp)]
  have h1 : A.filter (fun x => ! decide (x = v)) = A :=
    List.filter_eq_self.2 (by intro x hx; simp [ne_of_lt (hA x hx)])
  have h2 : B.filter (fun x => ! decide (x = v)) = B :=
    List.filter_eq_self.2 (by intro x hx; simp [ne_of_gt (hB x hx)])
  rw [h1, h2]

theorem dropWhile_lt_mem {L : List T} {v : T}
    (hs : L.Sorted (· < ·)) (hv : v ∈ L) :
    L.dropWhile (fun x => decide (x < v))
      = v :: L.filter (fun x => decide (v < x)) := by
  rcases sorted_split_mem hs hv with ⟨A, B, hsplit, hA, hB⟩
  rw [hsplit, dropWhile_append_sat _ A (v :: B) (by intro x hx; simp [hA x hx]),
    List.dropWhile_cons_of_neg (by simp), filter_split_gt hA hB]

theorem takeWhile_lt_mem {L : List T} {v : T}
    (hs : L.Sorted (· < ·)) (hv : v ∈ L) :
    L.takeWhile (fun x => decide (x < v))
      = L.filter (fun x => decide (x < v)) :=
  takeWhile_eq_filter_of_sorted _ (mono_lt v) hs

theorem not_mem_of_dropWhile_lt_ne {L : List T} {v w : T} {t : List T}
    (hs : L.Sorted (· < ·))
    (hd : L.dropWhile (fun x => decide (x < v)) = w :: t) (hw : w ≠ v) :
    v ∉ L := by
  intro hv
  rw [dropWhile_lt_mem hs hv] at hd
  injection hd with h1 _
  exact hw h1.symm

theorem not_mem_of_dropWhile_lt_nil {L : List T} {v : T}
    (hs : L.Sorted (· < ·))
    (hd : L.dropWhile (fun x => decide (x < v)) = []) :
    v ∉ L := by
  intro hv
  rw [dropWhile_lt_mem hs hv] at hd
  cases hd

theorem spliceOut_of_suffix {L A r : List T} (h : L = A ++ r) :
    spliceOut L r = A ++ r.tail := by
  subst h
  rw [spliceOut, List.length_append, Nat.add_sub_cancel, List.take_left]

/-- Data carried along the recorded predecessor stack of `erase`: each
recorded suffix is the layer's tail past its last value below `v`, each
layer is sorted and a sub-chain of the layer below (`M` at the bottom). -/
def RefsChain (v : T) : List T → List (List T × List T) → Prop
  | _, [] => True
  | M, (L, r) :: ps =>
      r = L.dropWhile (fun x => decide (x < v)) ∧
      L.Sorted (· < ·) ∧ L.Sublist M ∧ RefsChain v L ps

theorem refsChain_build (v : T) :
    ∀ (ls : List (List T)) (M : List T),
      List.Chain' (fun a b => List.Sublist b a) (M :: ls) →
      (∀ L ∈ ls, L.Sorted (· < ·)) →
      RefsChain v M (ls.map (fun L => (L, L.dropWhile (fun x => decide (x < v))))) := by
  intro ls
  induction ls with
  | nil => intro M _ _; trivial
  | cons L ls' ih =>
    intro M hc hmem
    rcases List.chain'_cons.1 hc with ⟨hLM, hc'⟩
    exact ⟨rfl, hmem L (by simp), hLM,
      ih L hc' (fun K hK => hmem K (List.mem_cons_of_mem L hK))⟩

theorem refsChain_no_v (v : T) :
    ∀ (ps : List (List T × List T)) (M : List T),
      RefsChain v M ps → v ∉ M →
      ps.map Prod.fst
        = ps.map (fun p => p.1.filter (fun x => ! decide (x = v))) := by
  intro ps
  induction ps with
  | nil => intro M _ _; rfl
  | cons p ps' ih =>
    intro M hc hvM
    obtain ⟨L, r⟩ := p
    rcases hc with ⟨_, _, hLM, hrec⟩
    have hvL : v ∉ L := fun hv => hvM (hLM.subset hv)
    have hfix : L.filter (fun x => ! decide (x = v)) = L :=
      List.filter_eq_self.2
        (by intro x hx; simp; intro he; exact absurd (he ▸ hx) hvL)
    simp only [List.map_cons, hfix]
    rw [ih L hrec hvL]

/-- The tower-removal loop unlinks exactly the layers whose next node is
the erased tower, which (towers being downward closed) removes `v` from
every layer that holds it and leaves the rest untouched: every layer ends
up equal to itself with `v` filtered out. -/
theorem unlinkLoop_spec (v : T) :
    ∀ (refsAll : List (List T × List T)) (M : List T),
      RefsChain v M refsAll →
      unlinkLoop v refsAll
        = refsAll.map (fun p => p.1.filter (fun x => ! decide (x = v))) := by
  intro refsAll
  induction refsAll with
  | nil => intro M _; rfl
  | cons p ps ih =>
    intro M hc
    obtain ⟨L, r⟩ := p
    rcases hc with ⟨hr, hsL, hLM, hrec⟩
    cases hdrop : L.dropWhile (fun x => decide (x < v)) with
    | nil =>
      have hvL : v ∉ L := not_mem_of_dropWhile_lt_nil hsL hdrop
      have hfix : L.filter (fun x => ! decide (x = v)) = L :=
        List.filter_eq_self.2
          (by intro x hx; simp; intro he; exact absurd (he ▸ hx) hvL)
      simp only [unlinkLoop, hr, hdrop, List.map_cons, hfix]
      rw [refsChain_no_v v ps L hrec hvL]
    | cons w t =>
      by_cases hwv : w = v
      · rw [hwv] at hdrop
        have hvL : v ∈ L := by
          have hmem : v ∈ L.dropWhile (fun x => decide (x < v)) := by
            rw [hdrop]; simp
          exact (List.dropWhile_sublist _).subset hmem
        rcases sorted_split_mem hsL hvL with ⟨A, B, hsplit, hA, hB⟩
        have hd2 : L.dropWhile (fun x => decide (x < v))
            = v :: L.filter (fun x => decide (v < x)) := dropWhile_lt_mem hsL hvL
        have ht : t = L.filter (fun x => decide (v < x)) := by
          rw [hdrop] at hd2
          injection hd2
        have hLsplit : L = L.takeWhile (fun x => decide (x < v)) ++ (v :: t) := by
          conv_lhs => rw [← List.takeWhile_append_dropWhile
            (fun x => decide (x < v)) L]
          rw [hdrop]
        have hso : spliceOut L (v :: t)
            = L.takeWhile (fun x => decide (x < v)) ++ t :=
          spliceOut_of_suffix hLsplit
        have hfilter : L.filter (fun x => ! decide (x = v))
            = L.takeWhile (fun x => decide (x < v)) ++ t := by
          rw [ht, takeWhile_lt_mem hsL hvL]
          rw [hsplit, filter_split_ne hA hB, filter_split_lt hA hB,
            filter_split_gt hA hB]
        subst hwv
        simp only [unlinkLoop, hr, hdrop, if_pos rfl, List.map_cons]
        rw [hso, hfilter, ih L hrec]
        simp
      · have hvL : v ∉ L := not_mem_of_dropWhile_lt_ne hsL hdrop hwv
        have hfix : L.filter (fun x => ! decide (x = v)) = L :=
          List.filter_eq_self.2
            (by intro x hx; simp; intro he; exact absurd (he ▸ hx) hvL)
        simp only [unlinkLoop, hr, hdrop, if_neg hwv, List.map_cons, hfix]
        rw [refsChain_no_v v ps L hrec hvL]

theorem lastLayer_map (f : List T → List T) :
    ∀ {ls : List (List T)}, ls ≠ [] →
      lastLayer (ls.map f) = f (lastLayer ls) := by
  intro ls
  induction ls with
  | nil => intro h; exact absurd rfl h
  | cons a t ih =>
    intro _
    cases t with
    | nil => rfl
    | cons b u =>
      rw [List.map_cons, lastLayer_cons_cons]
      exact ih (by simp)

/-- The head-chain shrink loop keeps the layer stack and the layer counter
in step, never grows the counter, keeps at least one layer, preserves the
sub-chain property, and never discards the base layer. -/
theorem shrink_spec :
    ∀ (cl : Nat) (layers : List (List T)),
      layers.length = cl →
      (shrink layers cl).1.length = (shrink layers cl).2 ∧
      (shrink layers cl).2 ≤ cl ∧
      (1 ≤ cl → 1 ≤ (shrink layers cl).2) ∧
      (List.Chain' List.Sublist layers →
        List.Chain' List.Sublist (shrink layers cl).1) ∧
      (1 ≤ cl → lastLayer (shrink layers cl).1 = lastLayer layers) := by
  intro cl
  induction cl using Nat.strong_induction_on with
  | _ cl ih =>
    intro layers hlen
    rw [shrink_eq]
    by_cases hcond : layers.head? = some ([] : List T) ∧ cl > 1
    · rw [if_pos hcond]
      obtain ⟨hhead, hcl⟩ := hcond
      have hlen' : layers.tail.length = cl - 1 := by
        cases layers with
        | nil => cases hhead
        | cons a t => simp at hlen ⊢; omega
      have hrec := ih (cl - 1) (by omega) layers.tail hlen'
      refine ⟨hrec.1, ?_, ?_, ?_, ?_⟩
      · have := hrec.2.1
        omega
      · intro _
        have := hrec.2.2.1 (by omega)
        omega
      · intro hchain
        exact hrec.2.2.2.1 hchain.tail
      · intro _
        rw [hrec.2.2.2.2 (by omega)]
        cases layers with
        | nil => cases hhead
        | cons a t =>
          cases t with
          | nil => simp at hlen; omega
          | cons b u => rfl
    · rw [if_neg hcond]
      exact ⟨hlen, le_refl cl, fun hc => hc, fun hc => hc, fun _ => rfl⟩

theorem erase_not_mem_spec (v : T) (s : skiplist T) (h : Inv s)
    (hv : v ∉ begin s) :
    erase v s = ((begin s).filter (fun x => decide (v < x)), s) := by
  cases hl : s.layers with
  | nil => exact absurd hl h.1
  | cons topL bs =>
    have hsort : (begin s).Sorted (· < ·) := h.2.2.2.2.1
    have hdes := descendRefs_state _ (mono_lt v) s h topL bs hl
    have hdropf : (begin s).dropWhile (fun x => decide (x < v))
        = (begin s).filter (fun x => decide (v < x)) := by
      rw [dropWhile_eq_filter_not_of_sorted _ (mono_lt v) hsort]
      apply List.filter_congr
      intro x hx
      have hxv : x ≠ v := fun he => hv (he ▸ hx)
      have hiff : (¬ x < v) ↔ v < x := by
        constructor
        · intro hnx
          exact lt_of_le_of_ne (not_lt.1 hnx) (Ne.symm hxv)
        · intro hvx
          exact not_lt.2 (le_of_lt hvx)
      calc (! decide (x < v)) = decide (¬ x < v) := decide_not.symm
        _ = decide (v < x) := decide_eq_decide.2 hiff
    cases hcase : (begin s).dropWhile (fun x => decide (x < v)) with
    | nil =>
      simp only [erase, hl, hdes, hcase]
      rw [← hdropf, hcase]
    | cons w t =>
      have hwv : w ≠ v := by
        intro he
        subst he
        exact hv ((List.dropWhile_sublist _).subset (by rw [hcase]; simp))
      simp only [erase, hl, hdes, hcase, if_neg hwv]
      rw [← hdropf, hcase]

theorem erase_mem_spec (v : T) (s : skiplist T) (h : Inv s)
    (hv : v ∈ begin s) :
    (erase v s).1 = (begin s).filter (fun x => decide (v < x)) ∧
    begin (erase v s).2 = (begin s).filter (fun x => ! decide (x = v)) ∧
    (erase v s).2.size_ = s.size_ - 1 ∧
    Inv (erase v s).2 := by
  obtain ⟨hne, hcount, hcap, hchain, hsort, hsize⟩ := h
  have hbase : lastLayer s.layers = begin s := rfl
  have hdropmem : (begin s).dropWhile (fun x => decide (x < v))
      = v :: (begin s).filter (fun x => decide (v < x)) :=
    dropWhile_lt_mem hsort hv
  -- reduce `erase` to its found branch
  have herase : erase v s =
      ((begin s).filter (fun x => decide (v < x)),
       ⟨(shrink ((unlinkLoop v
            ((begin s, v :: (begin s).filter (fun x => decide (v < x))) ::
              (s.layers.dropLast.reverse).map
                (fun L => (L, L.dropWhile (fun x => decide (x < v)))))).reverse)
          s.count_lvls).1,
        (shrink ((unlinkLoop v
            ((begin s, v :: (begin s).filter (fun x => decide (v < x))) ::
              (s.layers.dropLast.reverse).map
                (fun L => (L, L.dropWhile (fun x => decide (x < v)))))).reverse)
          s.count_lvls).2,
        s.size_ - 1⟩) := by
    cases hl : s.layers with
    | nil => exact absurd hl hne
    | cons topL bs =>
      have hdes := descendRefs_state _ (mono_lt v) s
        ⟨hne, hcount, hcap, hchain, hsort, hsize⟩ topL bs hl
      simp only [erase, hl, hdes, hdropmem, if_pos rfl]
      simp only [if_true]
      rw [← hl]
      rfl
  -- the layers after the tower-removal loop
  have hrevchain : List.Chain' (fun a b => List.Sublist b a)
      (begin s :: s.layers.dropLast.reverse) := by
    have := chain_rev_of_chain hchain
    rwa [reverse_eq_lastLayer_cons hne, hbase] at this
  have hsorted_mem : ∀ L ∈ s.layers.dropLast.reverse, L.Sorted (· < ·) := by
    intro L hL
    rw [List.mem_reverse] at hL
    have hLmem : L ∈ s.layers := (List.dropLast_sublist _).subset hL
    have hLsub : L.Sublist (lastLayer s.layers) :=
      chain_mem_sublist_lastLayer hchain L hLmem
    rw [hbase] at hLsub
    exact hsort.sublist hLsub
  have hrc : RefsChain v (begin s)
      ((begin s, v :: (begin s).filter (fun x => decide (v < x))) ::
        (s.layers.dropLast.reverse).map
          (fun L => (L, L.dropWhile (fun x => decide (x < v))))) :=
    ⟨hdropmem.symm, hsort, List.Sublist.refl _,
      refsChain_build v _ _ hrevchain hsorted_mem⟩
  have hunlink := unlinkLoop_spec v _ _ hrc
  have hNL : (unlinkLoop v
      ((begin s, v :: (begin s).filter (fun x => decide (v < x))) ::
        (s.layers.dropLast.reverse).map
          (fun L => (L, L.dropWhile (fun x => decide (x < v)))))).reverse
      = s.layers.map (fun L => L.filter (fun x => ! decide (x = v))) := by
    rw [hunlink]
    have hmm : ((begin s, v :: (begin s).filter (fun x => decide (v < x))) ::
        (s.layers.dropLast.reverse).map
          (fun L => (L, L.dropWhile (fun x => decide (x < v))))).map
          (fun p => p.1.filter (fun x => ! decide (x = v)))
        = (begin s :: s.layers.dropLast.reverse).map
            (fun L => L.filter (fun x => ! decide (x = v))) := by
      simp [List.map_map, Function.comp_def]
    rw [hmm, ← hbase, ← reverse_eq_lastLayer_cons hne,
      ← List.map_reverse, List.reverse_reverse]
  have hNLlen : (s.layers.map
      (fun L => L.filter (fun x => ! decide (x = v)))).length
      = s.count_lvls := by
    rw [List.length_map, hcount]
  have hNLchain : List.Chain' List.Sublist
      (s.layers.map (fun L => L.filter (fun x => ! decide (x = v)))) :=
    List.chain'_map_of_chain' _ (fun a b hab => hab.filter _) hchain
  have hNLlast : lastLayer
      (s.layers.map (fun L => L.filter (fun x => ! decide (x = v))))
      = (begin s).filter (fun x => ! decide (x = v)) := by
    rw [lastLayer_map _ hne, hbase]
  have hclpos : 1 ≤ s.count_lvls := by
    rw [hcount]
    cases hL : s.layers with
    | nil => exact absurd hL hne
    | cons a t => simp
  obtain ⟨hsync, hle, hpos, hchainpres, hlastpres⟩ :=
    shrink_spec s.count_lvls
      (s.layers.map (fun L => L.filter (fun x => ! decide (x = v)))) hNLlen
  rcases sorted_split_mem hsort hv with ⟨A, B, hsplit, hA, hB⟩
  have hfLen : ((begin s).filter (fun x => ! decide (x = v))).length + 1
      = (begin s).length := by
    rw [hsplit, filter_split_ne hA hB]
    simp
    omega
  refine ⟨by rw [herase], ?_, by rw [herase], ?_⟩
  · rw [herase]
    show lastLayer _ = _
    rw [hNL, hlastpres hclpos, hNLlast]
  · refine ⟨?_, ?_, ?_, ?_, ?_, ?_⟩
    · rw [herase]
      show (shrink _ _).1 ≠ []
      rw [hNL]
      intro hnil
      have h0 := hsync
      rw [hnil] at h0
      simp at h0
      have h1 := hpos hclpos
      omega
    · rw [herase]
      show (shrink _ _).2 = (shrink _ _).1.length
      rw [hNL]
      exact hsync.symm
    · rw [herase]
      show (shrink _ _).2 ≤ Max_Level
      rw [hNL]
      exact le_trans hle hcap
    · rw [herase]
      show List.Chain' List.Sublist (shrink _ _).1
      rw [hNL]
      exact hchainpres hNLchain
    · rw [herase, begin_mk]
      rw [hNL, hlastpres hclpos, hNLlast]
      exact hsort.filter _
    · rw [herase]
      show s.size_ - 1 = ((lastLayer (shrink ((unlinkLoop v
          ((begin s, v :: (begin s).filter (fun x => decide (v < x))) ::
            (s.layers.dropLast.reverse).map
              (fun L => (L, L.dropWhile (fun x => decide (x < v)))))).reverse)
          s.count_lvls).1).length : Int)
      rw [hNL, hlastpres hclpos, hNLlast, hsize]
      omega

/-! ## Corollaries: invariant preservation and membership -/

theorem inv_emptySk : Inv (emptySk : skiplist T) := by
  refine ⟨by simp [emptySk], rfl, by norm_num [emptySk, Max_Level], ?_, ?_, rfl⟩
  · simp [emptySk]
  · simp [begin, emptySk, lastLayer]

theorem Inv_insert (v : T) (coins : List Bool) (s : skiplist T) (h : Inv s) :
    Inv (insert v coins s).2.1 := by
  by_cases hv : v ∈ begin s
  · rw [insert_mem_spec v coins s h hv]
    exact h
  · exact (insert_not_mem_spec v coins s h hv).2.2.2

theorem mem_begin_insert (v x : T) (coins : List Bool) (s : skiplist T)
    (h : Inv s) :
    x ∈ begin (insert v coins s).2.1 ↔ x = v ∨ x ∈ begin s := by
  by_cases hv : v ∈ begin s
  · rw [insert_mem_spec v coins s h hv]
    constructor
    · exact Or.inr
    · rintro (rfl | hx)
      · exact hv
      · exact hx
  · rw [(insert_not_mem_spec v coins s h hv).2.1]
    have hparts : (begin s).takeWhile (fun x => ! decide (v < x)) ++
        (begin s).dropWhile (fun x => ! decide (v < x)) = begin s :=
      List.takeWhile_append_dropWhile _ _
    constructor
    · intro hx
      rcases List.mem_append.1 hx with h1 | h1
      · exact Or.inr (hparts ▸ List.mem_append.2 (Or.inl h1))
      · rcases List.mem_cons.1 h1 with rfl | h2
        · exact Or.inl rfl
        · exact Or.inr (hparts ▸ List.mem_append.2 (Or.inr h2))
    · rintro (rfl | hx)
      · exact List.mem_append.2 (Or.inr (by simp))
      · rw [← hparts] at hx
        rcases List.mem_append.1 hx with h1 | h1
        · exact List.mem_append.2 (Or.inl h1)
        · exact List.mem_append.2 (Or.inr (List.mem_cons_of_mem v h1))

theorem Inv_erase (v : T) (s : skiplist T) (h : Inv s) : Inv (erase v s).2 := by
  by_cases hv : v ∈ begin s
  · exact (erase_mem_spec v s h hv).2.2.2
  · rw [erase_not_mem_spec v s h hv]
    exact h

theorem mem_begin_erase (v x : T) (s : skiplist T) (h : Inv s) :
    x ∈ begin (erase v s).2 ↔ x ∈ begin s ∧ x ≠ v := by
  by_cases hv : v ∈ begin s
  · rw [(erase_mem_spec v s h hv).2.1]
    simp [List.mem_filter]
  · rw [erase_not_mem_spec v s h hv]
    show x ∈ begin s ↔ _
    constructor
    · intro hx
      exact ⟨hx, fun he => hv (he ▸ hx)⟩
    · exact And.left

theorem size_eq_card (s : skiplist T) (h : Inv s) :
    size s = ((begin s).length : Int) := h.2.2.2.2.2

/-! ## Running operation sequences from the empty container -/

theorem iterMaterialize_eq : ∀ it : Iterator T, iterMaterialize it = it := by
  intro it
  induction it with
  | nil => rfl
  | cons v r ih =>
    show v :: iterMaterialize r = v :: r
    rw [ih]

/-- One step of the membership bookkeeping that `memAfter` folds. -/
def memStep (x : T) (b : Bool) : Op T → Bool
  | .ins w _ => b || decide (x = w)
  | .del w => b && ! decide (x = w)

theorem memAfter_eq_foldl (ops : List (Op T)) (v : T) :
    memAfter ops v = ops.foldl (memStep v) false := by
  have hfun : (fun (b : Bool) (op : Op T) =>
      match op with
      | .ins w _ => b || decide (v = w)
      | .del w => b && ! decide (v = w)) = memStep v := by
    funext b op
    cases op with
    | ins w coins => simp [memStep, eq_comm]
    | del w => simp [memStep, eq_comm]
  rw [memAfter, hfun]

theorem run_general :
    ∀ (ops : List (Op T)) (s : skiplist T) (b : T → Bool),
      Inv s → (∀ x, x ∈ begin s ↔ b x = true) →
      Inv (ops.foldl applyOp s) ∧
      ∀ x, x ∈ begin (ops.foldl applyOp s) ↔
        ops.foldl (memStep x) (b x) = true := by
  intro ops
  induction ops with
  | nil =>
    intro s b hInv hmem
    exact ⟨hInv, hmem⟩
  | cons op rest ih =>
    intro s b hInv hmem
    cases op with
    | ins w coins =>
      have hInv' : Inv (insert w coins s).2.1 := Inv_insert w coins s hInv
      have hmem' : ∀ x, x ∈ begin (insert w coins s).2.1 ↔
          (b x || decide (x = w)) = true := by
        intro x
        rw [mem_begin_insert w x coins s hInv]
        rw [Bool.or_eq_true, decide_eq_true_eq]
        rw [← hmem x]
        tauto
      exact ih (insert w coins s).2.1 (fun x => b x || decide (x = w)) hInv' hmem'
    | del w =>
      have hInv' : Inv (erase w s).2 := Inv_erase w s hInv
      have hmem' : ∀ x, x ∈ begin (erase w s).2 ↔
          (b x && ! decide (x = w)) = true := by
        intro x
        rw [mem_begin_erase w x s hInv]
        rw [Bool.and_eq_true, Bool.not_eq_true', decide_eq_false_iff_not]
        rw [← hmem x]
      exact ih (erase w s).2 (fun x => b x && ! decide (x = w)) hInv' hmem'

theorem run_inv (ops : List (Op T)) : Inv (run ops) :=
  (run_general ops emptySk (fun _ => false) inv_emptySk
    (by intro x; simp [begin, emptySk, lastLayer])).1

theorem run_mem (ops : List (Op T)) (x : T) :
    x ∈ begin (run ops) ↔ memAfter ops x = true := by
  rw [memAfter_eq_foldl]
  exact (run_general ops emptySk (fun _ => false) inv_emptySk
    (by intro y; simp [begin, emptySk, lastLayer])).2 x

/-! ## The layer-count bound, over every reachable state -/

/-- The bookkeeping invariant that needs no ordering assumptions: the head
chain is nonempty, `count_lvls` counts its layers, and the ceiling holds. -/
def J (s : skiplist T) : Prop :=
  s.layers ≠ [] ∧ s.count_lvls = s.layers.length ∧ s.count_lvls ≤ Max_Level

theorem towerUp_sync (v : T) :
    ∀ (coins : List Bool) (lvl cl : Nat) (pairs : List (List T × List T)),
      cl = lvl + 1 + pairs.length → cl ≤ 32 →
      (towerUp v coins lvl cl pairs).2.1
        = lvl + 1 + (towerUp v coins lvl cl pairs).1.length ∧
      (towerUp v coins lvl cl pairs).2.1 ≤ 32 := by
  intro coins
  induction coins with
  | nil =>
    intro lvl cl pairs hsync hcl
    rw [towerUp_nil_coins]
    exact ⟨by simpa using hsync, hcl⟩
  | cons flip cs ih =>
    intro lvl cl pairs hsync hcl
    cases flip with
    | false =>
      rw [towerUp_false]
      exact ⟨by simpa using hsync, hcl⟩
    | true =>
      by_cases hlvl : lvl + 1 < Max_Level
      · cases pairs with
        | cons p ps =>
          obtain ⟨L, r⟩ := p
          have hrest := ih (lvl + 1) cl ps
            (by simp only [List.length_cons] at hsync; omega) hcl
          rw [towerUp_true_cons v cs lvl cl L r ps hlvl]
          refine ⟨?_, hrest.2⟩
          have h1 := hrest.1
          simp only [List.length_cons]
          omega
        | nil =>
          have hsync' : cl = lvl + 1 := by simpa using hsync
          have hrest := ih (lvl + 1) (cl + 1) [] (by omega)
            (by simp only [Max_Level] at hlvl; omega)
          rw [towerUp_true_push v cs lvl cl hlvl]
          refine ⟨?_, hrest.2⟩
          have h1 := hrest.1
          simp only [List.length_cons]
          omega
      · rw [towerUp_true_cap v cs lvl cl pairs hlvl]
        exact ⟨by simpa using hsync, hcl⟩

theorem descendRefs_pairs_length (g : T → Bool) (below : List (List T))
    (cur : Option T) (rest curL : List T) :
    (descendRefs g cur rest curL below).2.2.length = below.length := by
  have hfst := descendRefs_pairs_fst g below cur rest curL
  have hlen := congrArg List.length hfst
  simpa using hlen

theorem insert_J (v : T) (coins : List Bool) (s : skiplist T) (hJ : J s) :
    J (insert v coins s).2.1 := by
  obtain ⟨hne, hcount, hcap⟩ := hJ
  cases hl : s.layers with
  | nil => exact absurd hl hne
  | cons topL bs =>
    have hJfresh : ∀ (r : List T) (pairs : List (List T × List T)),
        pairs.length = bs.length → J (insertFresh v coins s r pairs).2.1 := by
      intro r pairs hplen2
      have hsync : s.count_lvls = 0 + 1 + pairs.length := by
        rw [hcount, hl, hplen2]
        simp only [List.length_cons]
        omega
      have hts := towerUp_sync v coins 0 s.count_lvls pairs hsync
        (by simpa [Max_Level] using hcap)
      refine ⟨by simp [insertFresh], ?_, ?_⟩
      · show (towerUp v coins 0 s.count_lvls pairs).2.1 = _
        rw [hts.1]
        show _ = ((towerUp v coins 0 s.count_lvls pairs).1.reverse ++ [_]).length
        simp only [List.length_append, List.length_reverse, List.length_cons,
          List.length_nil]
        omega
      · show (towerUp v coins 0 s.count_lvls pairs).2.1 ≤ Max_Level
        simpa [Max_Level] using hts.2
    simp only [insert, hl]
    cases hc : (descendRefs (fun x => ! decide (v < x)) none topL topL bs).1 with
    | none =>
      exact hJfresh _ _ (descendRefs_pairs_length _ bs none topL topL)
    | some w =>
      by_cases hwv : w = v
      · simp only [if_pos hwv]
        exact ⟨hne, hcount, hcap⟩
      · simp only [if_neg hwv]
        exact hJfresh _ _ (descendRefs_pairs_length _ bs none topL topL)

theorem unlinkLoop_length (v : T) :
    ∀ l : List (List T × List T), (unlinkLoop v l).length = l.length := by
  intro l
  induction l with
  | nil => rfl
  | cons p ps ih =>
    obtain ⟨L, r⟩ := p
    cases r with
    | nil => simp [unlinkLoop]
    | cons w t =>
      by_cases hwv : w = v
      · simp [unlinkLoop, hwv, ih]
      · simp [unlinkLoop, hwv]

theorem erase_J (v : T) (s : skiplist T) (hJ : J s) : J (erase v s).2 := by
  obtain ⟨hne, hcount, hcap⟩ := hJ
  cases hl : s.layers with
  | nil => exact absurd hl hne
  | cons topL bs =>
    simp only [erase, hl]
    cases hc : (descendRefs (fun x => decide (x < v)) none topL topL bs).2.1 with
    | nil => exact ⟨hne, hcount, hcap⟩
    | cons w t =>
      by_cases hwv : w = v
      · simp only [if_pos hwv]
        have hNLlen : ((unlinkLoop v ((lastLayer (topL :: bs), w :: t) ::
            (descendRefs (fun x => decide (x < v)) none topL topL bs).2.2)).reverse).length
            = s.count_lvls := by
          rw [List.length_reverse, unlinkLoop_length]
          simp only [List.length_cons,
            descendRefs_pairs_length (fun x => decide (x < v)) bs none topL topL]
          rw [hcount, hl]
          simp
        obtain ⟨hsync, hle, hpos, _, _⟩ := shrink_spec s.count_lvls _ hNLlen
        have hclpos : 1 ≤ s.count_lvls := by
          rw [hcount, hl]
          simp
        refine ⟨?_, hsync.symm, le_trans hle hcap⟩
        show (shrink _ _).1 ≠ []
        intro hnil
        have h0 := hsync
        rw [hnil] at h0
        simp at h0
        have h1 := hpos hclpos
        omega
      · simp only [if_neg hwv]
        exact ⟨hne, hcount, hcap⟩

theorem buildTower_J (v : T) :
    ∀ (coins : List Bool) (lvl cl : Nat) (acc : List (List T)),
      acc.length = cl → cl ≤ 32 → 1 ≤ cl →
      (buildTower v coins lvl cl acc).1.length = (buildTower v coins lvl cl acc).2.1 ∧
      (buildTower v coins lvl cl acc).2.1 ≤ 32 ∧
      1 ≤ (buildTower v coins lvl cl acc).2.1 := by
  intro coins
  induction coins with
  | nil =>
    intro lvl cl acc hlen hcl hpos
    exact ⟨hlen, hcl, hpos⟩
  | cons flip cs ih =>
    intro lvl cl acc hlen hcl hpos
    simp only [buildTower]
    by_cases hlvl : lvl + 1 < Max_Level
    · rw [if_pos hlvl]
      cases flip with
      | false => exact ⟨hlen, hcl, hpos⟩
      | true =>
        simp only [if_pos rfl]
        by_cases hup : lvl + 1 ≥ cl
        · rw [if_pos hup]
          exact ih (lvl + 1) (cl + 1) (acc ++ [[v]])
            (by simp [hlen]) (by simp only [Max_Level] at hlvl; omega) (by omega)
        · rw [if_neg hup]
          exact ih (lvl + 1) cl (appendAt acc (lvl + 1) v)
            (by simp [appendAt, hlen]) hcl hpos
    · rw [if_neg hlvl]
      exact ⟨hlen, hcl, hpos⟩

theorem bulkAppend_fold_J (vals : List T) :
    ∀ (st : List (List T) × Nat × Int × List Bool),
      st.1.length = st.2.1 → st.2.1 ≤ 32 → 1 ≤ st.2.1 →
      (vals.foldl bulkAppend st).1.length = (vals.foldl bulkAppend st).2.1 ∧
      (vals.foldl bulkAppend st).2.1 ≤ 32 ∧
      1 ≤ (vals.foldl bulkAppend st).2.1 := by
  induction vals with
  | nil =>
    intro st h1 h2 h3
    exact ⟨h1, h2, h3⟩
  | cons v vs ih =>
    intro st h1 h2 h3
    simp only [List.foldl_cons]
    have hbt := buildTower_J v st.2.2.2 0 st.2.1 (appendAt st.1 0 v)
      (by simp [appendAt, h1]) h2 h3
    exact ih _ hbt.1 hbt.2.1 hbt.2.2

theorem rangeCtor_J (vals : List T) (coins : List Bool) :
    J (rangeCtor vals coins) := by
  have hres := bulkAppend_fold_J vals ([[]], 1, 0, coins)
    (by simp) (by show (1 : Nat) ≤ 32; decide) (by show (1 : Nat) ≤ 1; decide)
  refine ⟨?_, ?_, ?_⟩
  · show (vals.foldl bulkAppend ([[]], 1, 0, coins)).1.reverse ≠ []
    intro hnil
    have h0 := congrArg List.length hnil
    simp only [List.length_reverse, List.length_nil] at h0
    have h1 := hres.1
    have h2 := hres.2.2
    omega
  · show (vals.foldl bulkAppend ([[]], 1, 0, coins)).2.1
      = (vals.foldl bulkAppend ([[]], 1, 0, coins)).1.reverse.length
    rw [List.length_reverse]
    exact hres.1.symm
  · show (vals.foldl bulkAppend ([[]], 1, 0, coins)).2.1 ≤ Max_Level
    simpa [Max_Level] using hres.2.1

theorem reach_J : ∀ {s : skiplist T}, Reach s → J s := by
  intro s h
  induction h with
  | emptyStep =>
    exact ⟨by simp [emptySk], rfl, by norm_num [emptySk, Max_Level]⟩
  | insStep v coins _ ih => exact insert_J v coins _ ih
  | delStep v _ ih => exact erase_J v _ ih
  | rangeStep vals coins => exact rangeCtor_J vals coins
  | copyStep coins _ _ => exact rangeCtor_J _ coins
  | assignStep b coins _ _ ihs _ =>
    cases b with
    | true => simpa [assign] using ihs
    | false => exact rangeCtor_J _ coins

/-! ## Remaining auxiliary facts for the claim theorems -/

theorem head?_filter_eq_find? (p : T → Bool) :
    ∀ l : List T, (l.filter p).head? = l.find? p := by
  intro l
  induction l with
  | nil => rfl
  | cons a t ih =>
    by_cases hp : p a
    · rw [List.filter_cons_of_pos hp, List.find?_cons_of_pos t hp]
      rfl
    · rw [List.filter_cons_of_neg (by simpa using hp),
        List.find?_cons_of_neg t (by simpa using hp)]
      exact ih

theorem find_eq_of_mem (v : T) (s : skiplist T) (h : Inv s) (hv : v ∈ begin s) :
    find v s = v :: (begin s).filter (fun x => decide (v < x)) :=
  find_mem v s h hv

/-- After a fresh insertion the returned iterator is exactly the node
`find` locates in the new container. -/
theorem insert_fst_eq_find (v : T) (coins : List Bool) (s : skiplist T)
    (h : Inv s) :
    (insert v coins s).1 = find v (insert v coins s).2.1 := by
  by_cases hv : v ∈ begin s
  · rw [insert_mem_spec v coins s h hv]
    exact (find_mem v s h hv).symm
  · obtain ⟨h1, h2, _, hInv'⟩ := insert_not_mem_spec v coins s h hv
    have hv' : v ∈ begin (insert v coins s).2.1 := by
      rw [h2]
      exact List.mem_append.2 (Or.inr (by simp))
    rw [find_mem v _ hInv' hv', h1]
    congr 1
    rw [h2]
    have hsort : (begin s).Sorted (· < ·) := h.2.2.2.2.1
    have htw : ((begin s).takeWhile (fun x => ! decide (v < x))).filter
        (fun x => decide (v < x)) = [] := by
      simp only [List.filter_eq_nil_iff]
      intro x hx
      have := List.mem_takeWhile_imp hx
      simpa using this
    have hdw : ((begin s).dropWhile (fun x => ! decide (v < x))).filter
        (fun x => decide (v < x)) = (begin s).dropWhile (fun x => ! decide (v < x)) := by
      apply List.filter_eq_self.2
      intro x hx
      rw [dropWhile_eq_filter_not_of_sorted _ (mono_le v) hsort] at hx
      simpa using List.of_mem_filter hx
    rw [List.filter_append, htw, List.filter_cons_of_neg (by simp), hdw,
      dropWhile_eq_filter_not_of_sorted _ (mono_le v) hsort]
    simp

theorem sorted_nodup {l : List T} (hs : l.Sorted (· < ·)) : l.Nodup :=
  hs.nodup

theorem memAfter_ins_list (x : T) :
    ∀ (ps : List (T × List Bool)) (b : Bool),
      (ps.map (fun p => Op.ins p.1 p.2)).foldl (memStep x) b
        = (b || decide (x ∈ ps.map Prod.fst)) := by
  intro ps
  induction ps with
  | nil => intro b; simp
  | cons p qs ih =>
    intro b
    simp only [List.map_cons, List.foldl_cons]
    rw [ih]
    have hstep : memStep x b (Op.ins p.1 p.2) = (b || decide (x = p.1)) := rfl
    rw [hstep]
    simp only [List.mem_cons]
    by_cases h1 : x = p.1
    · simp [h1]
    · simp [h1]

/-! ## The claims -/

/-- C1: Starting from an empty container, after any finite sequence of
`insert(v)` calls — whatever the coin flips decide — iterating from
`begin()` to `end()` yields exactly the distinct inserted values, each
exactly once, in strictly increasing order. -/
theorem C1_iteration_sorted_distinct (ps : List (T × List Bool)) :
    (iterMaterialize (begin (run (ps.map (fun p => Op.ins p.1 p.2))))).Sorted (· < ·) ∧
    (iterMaterialize (begin (run (ps.map (fun p => Op.ins p.1 p.2))))).Nodup ∧
    ∀ x, x ∈ iterMaterialize (begin (run (ps.map (fun p => Op.ins p.1 p.2))))
      ↔ x ∈ ps.map Prod.fst := by
  rw [iterMaterialize_eq]
  have hInv := run_inv (T := T) (ps.map (fun p => Op.ins p.1 p.2))
  refine ⟨hInv.2.2.2.2.1, sorted_nodup hInv.2.2.2.2.1, ?_⟩
  intro x
  rw [run_mem, memAfter_eq_foldl, memAfter_ins_list]
  simp

/-- C2: After any sequence of `insert` and `erase` operations from the
empty container, `find(v)` returns the end marker iff `v` is not a member
of the current element set (never inserted, or erased after its last
insertion); otherwise `find(v)` returns an iterator dereferencing to `v`. -/
theorem C2_find_iff_member (ops : List (Op T)) (v : T) :
    (find v (run ops) = end_ (run ops) ↔ memAfter ops v = false) ∧
    (memAfter ops v = true → iterDeref (find v (run ops)) = some v) := by
  have hInv := run_inv ops
  have hmem := run_mem ops v
  constructor
  · constructor
    · intro hfind
      by_contra hne
      have hma : memAfter ops v = true := by
        cases hb : memAfter ops v
        · exact absurd hb hne
        · rfl
      have hv : v ∈ begin (run ops) := hmem.2 hma
      rw [find_mem v _ hInv hv] at hfind
      cases hfind
    · intro hma
      have hv : v ∉ begin (run ops) := by
        rw [hmem, hma]
        simp
      exact find_not_mem v _ hInv hv
  · intro hma
    have hv : v ∈ begin (run ops) := hmem.2 hma
    rw [find_mem v _ hInv hv]
    rfl

/-- C3: `insert(v)` on a value already present is a no-op — the container
and `size()` are unchanged — and returns an iterator to the existing
element (the very node `find(v)` locates); on an absent value, `v` is
added, `size()` grows by exactly one, and an iterator to the newly
inserted element is returned. -/
theorem C3_insert_contract (v : T) (coins : List Bool) (s : skiplist T)
    (h : Inv s) :
    ((insert v coins s).1 = find v (insert v coins s).2.1 ∧
     iterDeref (insert v coins s).1 = some v) ∧
    (v ∈ begin s →
      (insert v coins s).2.1 = s ∧
      (insert v coins s).1 = find v s ∧
      size (insert v coins s).2.1 = size s) ∧
    (v ∉ begin s →
      size (insert v coins s).2.1 = size s + 1 ∧
      (∀ x, x ∈ begin (insert v coins s).2.1 ↔ x = v ∨ x ∈ begin s)) := by
  refine ⟨⟨insert_fst_eq_find v coins s h, ?_⟩, ?_, ?_⟩
  · by_cases hv : v ∈ begin s
    · rw [insert_mem_spec v coins s h hv]
      rfl
    · rw [(insert_not_mem_spec v coins s h hv).1]
      rfl
  · intro hv
    rw [insert_mem_spec v coins s h hv]
    exact ⟨rfl, (find_mem v s h hv).symm, rfl⟩
  · intro hv
    obtain ⟨_, _, hsize, _⟩ := insert_not_mem_spec v coins s h hv
    exact ⟨hsize, fun x => mem_begin_insert v x coins s h⟩

/-- C4: `erase(v)` on an absent value is a no-op; on a present value it
removes exactly `v` and decreases `size()` by one; in both cases the
returned iterator holds the elements greater than `v` in order, i.e. it
points at the element now occupying `v`'s former base position (the first
element greater than `v`), or the end marker if none exists. -/
theorem C4_erase_contract (v : T) (s : skiplist T) (h : Inv s) :
    (erase v s).1 = (begin s).filter (fun x => decide (v < x)) ∧
    (v ∉ begin s → (erase v s).2 = s) ∧
    (v ∈ begin s →
      size (erase v s).2 = size s - 1 ∧
      (∀ x, x ∈ begin (erase v s).2 ↔ x ∈ begin s ∧ x ≠ v)) := by
  refine ⟨?_, ?_, ?_⟩
  · by_cases hv : v ∈ begin s
    · exact (erase_mem_spec v s h hv).1
    · rw [erase_not_mem_spec v s h hv]
  · intro hv
    rw [erase_not_mem_spec v s h hv]
  · intro hv
    exact ⟨(erase_mem_spec v s h hv).2.2.1,
      fun x => mem_begin_erase v x s h⟩

/-- C5: `lower_bound(v)` returns an iterator to the first element not
less than `v` (the suffix of all such elements; `find?` picks the first),
and `upper_bound(v)` an iterator to the first element strictly greater
than `v`; each is the end marker when no such element exists. -/
theorem C5_bounds (v : T) (s : skiplist T) (h : Inv s) :
    lower_bound v s = (begin s).filter (fun x => ! decide (x < v)) ∧
    upper_bound v s = (begin s).filter (fun x => decide (v < x)) ∧
    iterDeref (lower_bound v s) = (begin s).find? (fun x => ! decide (x < v)) ∧
    iterDeref (upper_bound v s) = (begin s).find? (fun x => decide (v < x)) ∧
    (lower_bound v s = end_ s ↔ ∀ x ∈ begin s, x < v) ∧
    (upper_bound v s = end_ s ↔ ∀ x ∈ begin s, ¬ v < x) := by
  refine ⟨lower_bound_spec v s h, upper_bound_spec v s h, ?_, ?_, ?_, ?_⟩
  · rw [lower_bound_spec v s h]
    exact head?_filter_eq_find? _ _
  · rw [upper_bound_spec v s h]
    exact head?_filter_eq_find? _ _
  · rw [lower_bound_spec v s h]
    show _ = ([] : List T) ↔ _
    rw [List.filter_eq_nil_iff]
    constructor
    · intro hall x hx
      have := hall x hx
      simpa using this
    · intro hall x hx
      simp [hall x hx]
  · rw [upper_bound_spec v s h]
    show _ = ([] : List T) ↔ _
    rw [List.filter_eq_nil_iff]
    constructor
    · intro hall x hx
      have := hall x hx
      simpa using this
    · intro hall x hx
      simpa using hall x hx

/-- C6: For a value `v` currently present, `lower_bound(v)` is the same
node `find(v)` returns (and it is not the end marker), and
`upper_bound(v)` is the element immediately after it — the successor node
of `find(v)`, the end marker when `v` is the largest element. -/
theorem C6_bounds_vs_find (v : T) (s : skiplist T) (h : Inv s)
    (hv : v ∈ begin s) :
    lower_bound v s = find v s ∧
    find v s ≠ end_ s ∧
    upper_bound v s = iterNext (find v s) := by
  rcases sorted_split_mem h.2.2.2.2.1 hv with ⟨A, B, hsplit, hA, hB⟩
  rw [find_mem v s h hv, lower_bound_spec v s h, upper_bound_spec v s h]
  refine ⟨?_, by simp [end_], ?_⟩
  · rw [hsplit, filter_split_ge hA hB, filter_split_gt hA hB]
  · rfl

/-- C7 counterexample: after inserting 1, 2, 3 and erasing 2, an iterator
still referencing the erased element 2 is passed to `erase(Iterator)`;
the call is indeed a no-op, but it returns an iterator to 3 — not the end
marker the claim promises. -/
theorem C7_counterexample :
    iterDeref (find 2 (run [Op.ins 1 [], Op.ins 2 [], Op.ins 3 []]))
      = some (2 : Int) ∧
    (2 : Int) ∉ begin (erase 2 (run [Op.ins 1 [], Op.ins 2 [], Op.ins 3 []])).2 ∧
    (eraseIter (find 2 (run [Op.ins 1 [], Op.ins 2 [], Op.ins 3 []]))
        (erase 2 (run [Op.ins 1 [], Op.ins 2 [], Op.ins 3 []])).2).2
      = (erase 2 (run [Op.ins 1 [], Op.ins 2 [], Op.ins 3 []])).2 ∧
    (eraseIter (find 2 (run [Op.ins 1 [], Op.ins 2 [], Op.ins 3 []]))
        (erase 2 (run [Op.ins 1 [], Op.ins 2 [], Op.ins 3 []])).2).1
      ≠ end_ (erase 2 (run [Op.ins 1 [], Op.ins 2 [], Op.ins 3 []])).2 := by
  decide

/-- C7 (amended): `erase(Iterator)` is erase-by-value applied to the
element the iterator references; when that element is no longer present
the call is a no-op that returns an iterator to the first element greater
than the referenced value — the end marker only when no such element
exists. -/
theorem C7_erase_iterator (v : T) (t : List T) (s : skiplist T) (h : Inv s) :
    eraseIter (v :: t) s = erase v s ∧
    (v ∉ begin s →
      (eraseIter (v :: t) s).2 = s ∧
      (eraseIter (v :: t) s).1 = (begin s).filter (fun x => decide (v < x))) := by
  refine ⟨rfl, ?_⟩
  intro hv
  show (erase v s).2 = s ∧ (erase v s).1 = _
  rw [erase_not_mem_spec v s h hv]
  exact ⟨rfl, rfl⟩

/-- C8: In every reachable container state — any sequence of insert,
erase, copy, assignment and range-construction, any coin outcomes — the
number of layers never exceeds 32, and no tower spans more than 32
layers. -/
theorem C8_layer_ceiling (s : skiplist T) (h : Reach s) :
    s.count_lvls ≤ Max_Level ∧ s.layers.length ≤ Max_Level ∧
    ∀ v, towerHeight v s ≤ Max_Level := by
  obtain ⟨hne, hcount, hcap⟩ := reach_J h
  refine ⟨hcap, hcount ▸ hcap, ?_⟩
  intro v
  calc towerHeight v s ≤ s.layers.length := List.length_filter_le _ _
    _ ≤ Max_Level := hcount ▸ hcap

/-- C9: Self-assignment (`this == &other`, the guarded branch of
`operator=`) leaves the container entirely unchanged. -/
theorem C9_self_assignment (s : skiplist T) (coins : List Bool) :
    assign s s true coins = s := rfl

/-- C10: A default-constructed `Iterator` denotes the end marker: it
equals `end()` of every container and converts to `false`; an iterator
denoting an element converts to `true` and differs from `end()`. -/
theorem C10_default_iterator (s : skiplist T) (v : T) (r : List T) :
    defaultIter = end_ s ∧
    iterBool (defaultIter : Iterator T) = false ∧
    iterBool (v :: r : Iterator T) = true ∧
    (v :: r : Iterator T) ≠ end_ s := by
  refine ⟨rfl, rfl, rfl, by simp [end_]⟩

/-! ## Concrete witnesses -/

theorem C2_witness :
    (find 2 (run [Op.ins (2 : Int) [], Op.del (2 : Int)]) = end_ (run [Op.ins (2 : Int) [], Op.del (2 : Int)])
      ↔ memAfter [Op.ins (2 : Int) [], Op.del (2 : Int)] (2 : Int) = false) ∧
    (memAfter [Op.ins (2 : Int) [], Op.del (2 : Int)] (2 : Int) = true →
      iterDeref (find 2 (run [Op.ins (2 : Int) [], Op.del (2 : Int)])) = some 2) :=
  C2_find_iff_member [Op.ins (2 : Int) [], Op.del (2 : Int)] 2

theorem C3_witness :
    Inv (run [Op.ins (1 : Int) [], Op.ins (3 : Int) [true]] : skiplist Int) ∧
    (((insert 2 [true, false] (run [Op.ins (1 : Int) [], Op.ins (3 : Int) [true]] : skiplist Int)).1
        = find 2 (insert 2 [true, false] (run [Op.ins (1 : Int) [], Op.ins (3 : Int) [true]])).2.1 ∧
      iterDeref (insert 2 [true, false] (run [Op.ins (1 : Int) [], Op.ins (3 : Int) [true]] : skiplist Int)).1
        = some 2) ∧
     ((2 : Int) ∈ begin (run [Op.ins (1 : Int) [], Op.ins (3 : Int) [true]] : skiplist Int) →
       (insert 2 [true, false] (run [Op.ins (1 : Int) [], Op.ins (3 : Int) [true]])).2.1
         = run [Op.ins (1 : Int) [], Op.ins (3 : Int) [true]] ∧
       (insert 2 [true, false] (run [Op.ins (1 : Int) [], Op.ins (3 : Int) [true]] : skiplist Int)).1
         = find 2 (run [Op.ins (1 : Int) [], Op.ins (3 : Int) [true]]) ∧
       size (insert 2 [true, false] (run [Op.ins (1 : Int) [], Op.ins (3 : Int) [true]])).2.1
         = size (run [Op.ins (1 : Int) [], Op.ins (3 : Int) [true]] : skiplist Int)) ∧
     ((2 : Int) ∉ begin (run [Op.ins (1 : Int) [], Op.ins (3 : Int) [true]] : skiplist Int) →
       size (insert 2 [true, false] (run [Op.ins (1 : Int) [], Op.ins (3 : Int) [true]])).2.1
         = size (run [Op.ins (1 : Int) [], Op.ins (3 : Int) [true]] : skiplist Int) + 1 ∧
       (∀ x, x ∈ begin (insert 2 [true, false] (run [Op.ins (1 : Int) [], Op.ins (3 : Int) [true]])).2.1
         ↔ x = 2 ∨ x ∈ begin (run [Op.ins (1 : Int) [], Op.ins (3 : Int) [true]] : skiplist Int)))) :=
  ⟨run_inv _, C3_insert_contract 2 [true, false] _ (run_inv _)⟩

theorem C4_witness :
    Inv (run [Op.ins (1 : Int) [], Op.ins (3 : Int) []] : skiplist Int) ∧
    ((erase 3 (run [Op.ins (1 : Int) [], Op.ins (3 : Int) []] : skiplist Int)).1
        = (begin (run [Op.ins (1 : Int) [], Op.ins (3 : Int) []] : skiplist Int)).filter
            (fun x => decide (3 < x)) ∧
     ((3 : Int) ∉ begin (run [Op.ins (1 : Int) [], Op.ins (3 : Int) []] : skiplist Int) →
       (erase 3 (run [Op.ins (1 : Int) [], Op.ins (3 : Int) []])).2 = run [Op.ins (1 : Int) [], Op.ins (3 : Int) []]) ∧
     ((3 : Int) ∈ begin (run [Op.ins (1 : Int) [], Op.ins (3 : Int) []] : skiplist Int) →
       size (erase 3 (run [Op.ins (1 : Int) [], Op.ins (3 : Int) []])).2
         = size (run [Op.ins (1 : Int) [], Op.ins (3 : Int) []] : skiplist Int) - 1 ∧
       (∀ x, x ∈ begin (erase 3 (run [Op.ins (1 : Int) [], Op.ins (3 : Int) []])).2
         ↔ x ∈ begin (run [Op.ins (1 : Int) [], Op.ins (3 : Int) []] : skiplist Int) ∧ x ≠ 3))) :=
  ⟨run_inv _, C4_erase_contract 3 _ (run_inv _)⟩

theorem C5_witness :
    Inv (run [Op.ins (2 : Int) [], Op.ins (4 : Int) [true]] : skiplist Int) ∧
    (lower_bound 3 (run [Op.ins (2 : Int) [], Op.ins (4 : Int) [true]] : skiplist Int)
        = (begin (run [Op.ins (2 : Int) [], Op.ins (4 : Int) [true]] : skiplist Int)).filter
            (fun x => ! decide (x < 3)) ∧
     upper_bound 3 (run [Op.ins (2 : Int) [], Op.ins (4 : Int) [true]] : skiplist Int)
        = (begin (run [Op.ins (2 : Int) [], Op.ins (4 : Int) [true]] : skiplist Int)).filter
            (fun x => decide (3 < x)) ∧
     iterDeref (lower_bound 3 (run [Op.ins (2 : Int) [], Op.ins (4 : Int) [true]] : skiplist Int))
        = (begin (run [Op.ins (2 : Int) [], Op.ins (4 : Int) [true]] : skiplist Int)).find?
            (fun x => ! decide (x < 3)) ∧
     iterDeref (upper_bound 3 (run [Op.ins (2 : Int) [], Op.ins (4 : Int) [true]] : skiplist Int))
        = (begin (run [Op.ins (2 : Int) [], Op.ins (4 : Int) [true]] : skiplist Int)).find?
            (fun x => decide (3 < x)) ∧
     (lower_bound 3 (run [Op.ins (2 : Int) [], Op.ins (4 : Int) [true]] : skiplist Int)
          = end_ (run [Op.ins (2 : Int) [], Op.ins (4 : Int) [true]])
        ↔ ∀ x ∈ begin (run [Op.ins (2 : Int) [], Op.ins (4 : Int) [true]] : skiplist Int), x < 3) ∧
     (upper_bound 3 (run [Op.ins (2 : Int) [], Op.ins (4 : Int) [true]] : skiplist Int)
          = end_ (run [Op.ins (2 : Int) [], Op.ins (4 : Int) [true]])
        ↔ ∀ x ∈ begin (run [Op.ins (2 : Int) [], Op.ins (4 : Int) [true]] : skiplist Int), ¬ (3 : Int) < x)) :=
  ⟨run_inv _, C5_bounds 3 _ (run_inv _)⟩

theorem C6_witness :
    (Inv (run [Op.ins (2 : Int) [], Op.ins (4 : Int) [true]] : skiplist Int) ∧
     (2 : Int) ∈ begin (run [Op.ins (2 : Int) [], Op.ins (4 : Int) [true]] : skiplist Int)) ∧
    (lower_bound 2 (run [Op.ins (2 : Int) [], Op.ins (4 : Int) [true]] : skiplist Int)
        = find 2 (run [Op.ins (2 : Int) [], Op.ins (4 : Int) [true]]) ∧
     find 2 (run [Op.ins (2 : Int) [], Op.ins (4 : Int) [true]] : skiplist Int)
        ≠ end_ (run [Op.ins (2 : Int) [], Op.ins (4 : Int) [true]]) ∧
     upper_bound 2 (run [Op.ins (2 : Int) [], Op.ins (4 : Int) [true]] : skiplist Int)
        = iterNext (find 2 (run [Op.ins (2 : Int) [], Op.ins (4 : Int) [true]]))) :=
  ⟨⟨run_inv _, by decide⟩, C6_bounds_vs_find 2 _ (run_inv _) (by decide)⟩

theorem C7_witness :
    Inv (run [Op.ins (1 : Int) []] : skiplist Int) ∧
    (eraseIter (5 :: []) (run [Op.ins (1 : Int) []] : skiplist Int)
        = erase 5 (run [Op.ins (1 : Int) []]) ∧
     ((5 : Int) ∉ begin (run [Op.ins (1 : Int) []] : skiplist Int) →
       (eraseIter (5 :: []) (run [Op.ins (1 : Int) []] : skiplist Int)).2
         = run [Op.ins (1 : Int) []] ∧
       (eraseIter (5 :: []) (run [Op.ins (1 : Int) []] : skiplist Int)).1
         = (begin (run [Op.ins (1 : Int) []] : skiplist Int)).filter
             (fun x => decide (5 < x)))) :=
  ⟨run_inv _, C7_erase_iterator 5 [] _ (run_inv _)⟩

theorem C8_witness :
    Reach (rangeCtor [1, 2, 3] [true, false, true] : skiplist Int) ∧
    ((rangeCtor [1, 2, 3] [true, false, true] : skiplist Int).count_lvls ≤ Max_Level ∧
     (rangeCtor [1, 2, 3] [true, false, true] : skiplist Int).layers.length ≤ Max_Level ∧
     ∀ v, towerHeight v (rangeCtor [1, 2, 3] [true, false, true] : skiplist Int) ≤ Max_Level) :=
  ⟨Reach.rangeStep [1, 2, 3] [true, false, true],
   C8_layer_ceiling _ (Reach.rangeStep [1, 2, 3] [true, false, true])⟩

end SkipListVerification
